import Mathlib

/-!
Verification of the sf2-to-opxy converter.

This file gives a shallow embedding, in Lean 4, of the parts of the
sf2-to-opxy code base that the checked claims are about:

* `selection.py`  — keyboard zone downselection and key-range assignment;
* `converter.py`  — envelope curve mapping, loop clamping, zero-crossing
  snapping, and drum velocity selection;
* `audio.py`      — linear and windowed-sinc resampling;
* `sf2_reader.py` — per-zone resolution of the four-level generator-bag
  hierarchy.

Python integers are embedded as `Int`/`Nat`; Python float arithmetic is
idealised as exact arithmetic over `ℚ` where the computation is rational
and over `ℝ` where it is not (logarithms, roots, trigonometry).  Python's
built-in `round` (round-half-to-even) is embedded as `pyRound`.  Fallible
paths that skip a zone are embedded with `Option`.
-/

namespace Sf2Opxy

/-- Python's built-in `round`: round half to even, returning an integer. -/
def pyRound {α : Type*} [LinearOrderedField α] [FloorRing α] (x : α) : ℤ :=
  if x - (⌊x⌋ : α) < 1/2 then ⌊x⌋
  else if 1/2 < x - (⌊x⌋ : α) then ⌊x⌋ + 1
  else if ⌊x⌋ % 2 = 0 then ⌊x⌋ else ⌊x⌋ + 1

theorem floor_le_pyRound {α : Type*} [LinearOrderedField α] [FloorRing α] (x : α) :
    ⌊x⌋ ≤ pyRound x ∧ pyRound x ≤ ⌊x⌋ + 1 := by
  unfold pyRound
  split_ifs <;> omega

theorem pyRound_le {α : Type*} [LinearOrderedField α] [FloorRing α] {n : ℤ} {x : α}
    (h : x ≤ (n : α)) : pyRound x ≤ n := by
  have hf : ⌊x⌋ ≤ n := by
    have h2 := Int.floor_le_floor h
    simpa using h2
  rcases lt_or_eq_of_le hf with hlt | heq
  · have := (floor_le_pyRound x).2
    omega
  · unfold pyRound
    have hxle : x ≤ (⌊x⌋ : α) := by
      rw [heq]; exact h
    have hlt2 : x - (⌊x⌋ : α) < 1/2 := by
      have : (0 : α) < 1/2 := by norm_num
      linarith
    rw [if_pos hlt2]
    omega

theorem le_pyRound {α : Type*} [LinearOrderedField α] [FloorRing α] {n : ℤ} {x : α}
    (h : (n : α) ≤ x) : n ≤ pyRound x := by
  have hf : n ≤ ⌊x⌋ := Int.le_floor.mpr h
  have := (floor_le_pyRound x).1
  omega

/-- Python's `round(p / q)` for integers `p` and `q > 0`, computed exactly:
round half to even of the quotient `p / q`. -/
def round_div_half_even (p q : ℤ) : ℤ :=
  let f := p.fdiv q
  let r2 := 2 * (p - f * q)
  if r2 < q then f
  else if q < r2 then f + 1
  else if f % 2 = 0 then f else f + 1

/-- The list of integers `a, a+1, ..., b-1` (Python's `range(a, b)`). -/
def intRange (a b : ℤ) : List ℤ :=
  (List.range (b - a).toNat).map (fun k : ℕ => a + (k : ℤ))

theorem mem_intRange {a b i : ℤ} (h : i ∈ intRange a b) : a ≤ i ∧ i < b := by
  unfold intRange at h
  rcases List.mem_map.mp h with ⟨k, hk, rfl⟩
  rw [List.mem_range] at hk
  have hk3 : (k : ℤ) < b - a := Int.lt_toNat.mp hk
  omega

/-! ## `selection.py` — zone selection for the 88-key keyboard

A zone is embedded as the record of the fields the selection code reads and
writes (the Python code works with dicts; `root_key` defaults to 60 there
and is always present on zones produced by the reader). -/

structure MZone where
  root_key : Int
  vel_range : Int × Int
  lokey : Int
  hikey : Int
deriving DecidableEq

/-- Comparison used by Python's `sorted(zones, key=lambda z: z["root_key"])`. -/
def rootLe (a b : MZone) : Bool := decide (a.root_key ≤ b.root_key)

/-- The evenly spaced rounded target keys of `select_zones_for_88_keys`:
`round(key_min + i * (key_max - key_min) / (max_zones - 1))`, written as the
exact round of the fraction over the common denominator `max_zones - 1`. -/
def key_targets (max_zones : Nat) (key_min key_max : Int) : List Int :=
  (List.range max_zones).map (fun i : ℕ =>
    round_div_half_even (key_min * ((max_zones : ℤ) - 1) + (i : ℤ) * (key_max - key_min))
      ((max_zones : ℤ) - 1))

/-- Inner loop of `select_zones_for_88_keys`: scan `zones_sorted` by index,
skipping used indices, keeping the first index of minimal `abs(root - target)`.
`idx` is the index of the head of the remaining root list. -/
def best_unused_go (used : List Nat) (target : Int) :
    Nat → List Int → Option (Nat × Int) → Option (Nat × Int)
  | _, [], best => best
  | idx, rk :: rest, best =>
    if idx ∈ used then best_unused_go used target (idx + 1) rest best
    else
      let dist := |rk - target|
      match best with
      | none => best_unused_go used target (idx + 1) rest (some (idx, dist))
      | some (bi, bd) =>
        if dist < bd then best_unused_go used target (idx + 1) rest (some (idx, dist))
        else best_unused_go used target (idx + 1) rest (some (bi, bd))

def best_unused (roots : List Int) (used : List Nat) (target : Int) : Option Nat :=
  (best_unused_go used target 0 roots none).map Prod.fst

/-- Outer loop of `select_zones_for_88_keys`: for each target in order, pick
the best unused zone index and mark it used. -/
def select_go (roots : List Int) : List Int → List Nat → List Nat
  | [], _ => []
  | t :: ts, used =>
    match best_unused roots used t with
    | none => select_go roots ts used
    | some i => i :: select_go roots ts (i :: used)

def select_zones_for_88_keys (zones : List MZone) (max_zones : Nat)
    (key_min key_max : Int) : List MZone :=
  if zones.length ≤ max_zones then zones
  else
    let zones_sorted := zones.mergeSort rootLe
    let roots := zones_sorted.map MZone.root_key
    let targets := key_targets max_zones key_min key_max
    let picked := select_go roots targets []
    let selected := picked.map (fun i => zones_sorted.getD i ⟨60, (0, 127), 0, 0⟩)
    selected.mergeSort rootLe

/-- Body of `assign_key_ranges`' loop over the root-key-sorted zones.
`n` is the total zone count and `i` the index of the head zone. -/
def assign_ranges_go (roots : List Int) (key_min key_max : Int) (n : Nat) :
    Nat → List MZone → List MZone
  | _, [] => []
  | i, z :: rest =>
    let low_key := if i = 0 then key_min
      else (roots.getD (i - 1) 60 + roots.getD i 60).fdiv 2 + 1
    let high_key := if i = n - 1 then key_max
      else (roots.getD i 60 + roots.getD (i + 1) 60).fdiv 2
    { z with lokey := max key_min (min low_key key_max),
             hikey := max key_min (min high_key key_max) }
      :: assign_ranges_go roots key_min key_max n (i + 1) rest

def assign_key_ranges (zones : List MZone) (key_min key_max : Int) : List MZone :=
  let zones_sorted := zones.mergeSort rootLe
  let roots := zones_sorted.map MZone.root_key
  assign_ranges_go roots key_min key_max roots.length 0 zones_sorted

/-! ## Loop-end offset

`apply_loop_end_offset` is imported by `loop_variants.py`, the CLI and the
tests from the converter module of the web build, whose file is not part of
this source tree. -/

/-- Modelled from the spec: `apply_loop_end_offset` (defined in the web
build's converter module, absent from this tree) adds `offset` to `loop_end`
and clamps the result so that it stays within `(loop_start, framecount]`. -/
def apply_loop_end_offset (loop_start loop_end framecount offset : ℤ) : ℤ :=
  min framecount (max (loop_start + 1) (loop_end + offset))

/-! ## `converter.py` — release curve -/

def RELEASE_MAX_SECONDS : ℝ := 30.0

/-- `scale_release_seconds` with its default `max_seconds`:
0 seconds maps to the instant-release code 32767; otherwise clip to 30 s,
take the cube root of the ratio and map `1 - ratio^(1/3)` onto 0..32767. -/
noncomputable def scale_release_seconds (seconds : ℝ) : ℤ :=
  if seconds ≤ 0 then 32767
  else
    let clipped := min seconds RELEASE_MAX_SECONDS
    let ratio := clipped / RELEASE_MAX_SECONDS
    let inverted := 1 - ratio ^ ((1 : ℝ) / 3)
    pyRound (inverted * 32767)

/-! ## `audio.py` — resamplers

Float arithmetic is idealised over `ℝ`.  Python's `int(...)` truncation is
embedded as `Int.floor` composed with `Int.toNat` (all truncated quantities
are nonnegative on every path the code reaches). -/

/-- `resample_linear(samples, src_rate, dst_rate)`. -/
noncomputable def resample_linear (samples : List ℤ) (src_rate dst_rate : ℕ) : List ℤ :=
  if src_rate = dst_rate then samples
  else
    let ratio : ℝ := (dst_rate : ℝ) / (src_rate : ℝ)
    let out_len := (⌊(samples.length : ℝ) * ratio⌋).toNat
    (List.range out_len).map (fun i : ℕ =>
      let src_pos : ℝ := (i : ℝ) / ratio
      let i0 := (⌊src_pos⌋).toNat
      let i1 := min (i0 + 1) (samples.length - 1)
      let frac := src_pos - (⌊src_pos⌋ : ℝ)
      pyRound ((samples.getD i0 0 : ℝ) * (1 - frac) + (samples.getD i1 0 : ℝ) * frac))

/-- `_blackman_window(n)`. -/
noncomputable def blackman_window (n : ℕ) : List ℝ :=
  if n ≤ 1 then [1]
  else
    (List.range n).map (fun i : ℕ =>
      0.42 - 0.5 * Real.cos (2 * Real.pi * (i : ℝ) / ((n : ℝ) - 1))
        + 0.08 * Real.cos (4 * Real.pi * (i : ℝ) / ((n : ℝ) - 1)))

/-- `_fir_lowpass_kernel(num_taps, cutoff_fraction)`. -/
noncomputable def fir_lowpass_kernel (num_taps : ℕ) (cutoff_fraction : ℝ) : List ℝ :=
  let n := 2 * num_taps + 1
  let window := blackman_window n
  let fc2 := 2 * cutoff_fraction
  let kernel := (List.range n).map (fun i : ℕ =>
    if (i : ℤ) - (num_taps : ℤ) = 0 then fc2 * window.getD i 0
    else Real.sin (Real.pi * fc2 * (((i : ℤ) - (num_taps : ℤ)) : ℝ))
      / (Real.pi * (((i : ℤ) - (num_taps : ℤ)) : ℝ)) * window.getD i 0)
  let s := kernel.sum
  if s ≠ 0 then kernel.map (fun k => k / s) else kernel

/-- `_resample_sinc_pure(samples, src_rate, dst_rate, num_taps)`, the
pure-Python windowed-sinc resampler (`resample_sinc` dispatches to a numpy
variant of the same algorithm when numpy is importable; the fallback is the
one embedded here). -/
noncomputable def resample_sinc_pure (samples : List ℤ) (src_rate dst_rate num_taps : ℕ) :
    List ℤ :=
  let n_in := samples.length
  let ratio : ℝ := (dst_rate : ℝ) / (src_rate : ℝ)
  if src_rate > dst_rate ∧ src_rate % dst_rate = 0 then
    -- integer-ratio downsampling fast path: convolve with the FIR kernel and decimate
    let factor := src_rate / dst_rate
    let cutoff : ℝ := 0.5 / (factor : ℝ) * 0.9
    let kernel := fir_lowpass_kernel (num_taps * factor) cutoff
    let half := kernel.length / 2
    ((List.range ((n_in + factor - 1) / factor)).map (fun k => k * factor)).map (fun i : ℕ =>
      let j_lo : ℤ := max 0 ((i : ℤ) - (half : ℤ))
      let j_hi : ℤ := min ((n_in : ℤ) - 1) ((i : ℤ) + (half : ℤ))
      let acc := ((intRange j_lo (j_hi + 1)).map (fun j : ℤ =>
        (samples.getD j.toNat 0 : ℝ) * kernel.getD ((half : ℤ) + (j - (i : ℤ))).toNat 0)).sum
      let v := pyRound acc
      if v > 32767 then 32767 else if v < -32768 then -32768 else v)
  else
    -- general case: per-output-sample windowed-sinc weighted sum
    let out_len := (⌊(n_in : ℝ) * ratio⌋).toNat
    if out_len = 0 then []
    else
      let cutoff := if ratio < 1 then ratio else 1
      let half := (⌊(num_taps : ℝ) / cutoff⌋).toNat
      let kernel_len := 2 * half + 1
      let window := blackman_window kernel_len
      let win_cutoff := window.map (fun w => w * cutoff)
      (List.range out_len).map (fun i : ℕ =>
        let src_pos : ℝ := (i : ℝ) / ratio
        let center := ⌊src_pos⌋
        let frac := src_pos - (center : ℝ)
        let j_lo : ℤ := max (-(half : ℤ)) (-center)
        let j_hi : ℤ := min (half : ℤ) ((n_in : ℤ) - 1 - center)
        let terms := (intRange j_lo (j_hi + 1)).map (fun j : ℤ =>
          let x := ((j : ℝ) - frac) * cutoff
          let px := Real.pi * x
          let s := if px > 1e-10 ∨ px < -(1e-10 : ℝ) then Real.sin px / px else 1
          let w := s * win_cutoff.getD (j + (half : ℤ)).toNat 0
          ((samples.getD (center + j).toNat 0 : ℝ) * w, w))
        let acc0 := (terms.map Prod.fst).sum
        let wsum := (terms.map Prod.snd).sum
        let acc1 := if wsum ≠ 0 then acc0 / wsum else acc0
        let acc2 := if acc1 > 32767 then (32767 : ℝ)
          else if acc1 < -32768 then (-32768 : ℝ) else acc1
        pyRound acc2)

/-- `resample_sinc(samples, src_rate, dst_rate, num_taps)`. -/
noncomputable def resample_sinc (samples : List ℤ) (src_rate dst_rate num_taps : ℕ) :
    List ℤ :=
  if src_rate = dst_rate then samples
  else resample_sinc_pure samples src_rate dst_rate num_taps

/-! ## `converter.py` — loop processing (zero-crossing snapping and clamping)

All arithmetic here is integral, so the embedding is executable. -/

/-- Direction argument of `_find_nearest_zero_crossing` (the source passes
the strings "forward", "backward" and "both"; the converter always passes
"both"). -/
inductive SearchDir where
  | forward
  | backward
  | both
deriving DecidableEq

/-- Python list indexing `pcm[i]` with a single negative wrap-around (the
code only ever indexes in bounds). -/
def pyIndex (l : List ℤ) (i : ℤ) : ℤ :=
  if i < 0 then l.getD (((l.length : ℤ) + i).toNat) 0 else l.getD i.toNat 0

/-- `_frame_amplitude(pcm, frame_idx, channels)`: the peak absolute sample
value across the channels of one frame. -/
def frame_amplitude (pcm : List ℤ) (frame_idx : ℤ) (channels : ℕ) : ℤ :=
  ((intRange (frame_idx * channels) (frame_idx * channels + channels)).map
    (fun i => |pyIndex pcm i|)).foldl max 0

/-- Scan loop of `_find_nearest_zero_crossing`: walk the candidate frames,
keep the first frame of minimal amplitude, and stop early at the first
improving frame at or below the threshold. -/
def zc_scan (pcm : List ℤ) (channels : ℕ) (threshold : ℤ) :
    List ℤ → ℤ → ℤ → ℤ
  | [], best, _ => best
  | i :: rest, best, min_amp =>
    let a := frame_amplitude pcm i channels
    if a < min_amp then
      if a ≤ threshold then i
      else zc_scan pcm channels threshold rest i a
    else zc_scan pcm channels threshold rest best min_amp

/-- `_find_nearest_zero_crossing(pcm, channels, frame_position, direction,
max_distance, min_frame, max_frame, threshold)`. -/
def find_nearest_zero_crossing (pcm : List ℤ) (channels : ℕ) (frame_position : ℤ)
    (direction : SearchDir) (max_distance : ℤ) (min_frame : ℤ)
    (max_frame : Option ℤ) (threshold : ℤ) : ℤ :=
  let framecount : ℤ := (pcm.length / channels : ℕ)
  let max_frame := max_frame.getD (max 0 (framecount - 1))
  let fp := max min_frame (min frame_position max_frame)
  let search_start :=
    match direction with
    | .forward => fp
    | .backward => max (fp - max_distance) min_frame
    | .both => max (fp - max_distance) min_frame
  let search_end :=
    match direction with
    | .forward => min (fp + max_distance) max_frame
    | .backward => fp
    | .both => min (fp + max_distance) max_frame
  zc_scan pcm channels threshold (intRange search_start (search_end + 1)) fp
    (frame_amplitude pcm fp channels)

/-- `_adjust_loop_zero_crossing(...)` minus its logging: returns the adjusted
`(loop_start, loop_end)` pair. -/
def adjust_loop_zero_crossing (pcm : List ℤ) (channels : ℕ)
    (loop_start loop_end : ℤ) (max_distance threshold : ℤ) : ℤ × ℤ :=
  if loop_end ≤ loop_start then (loop_start, loop_end)
  else
    let framecount : ℤ := (pcm.length / channels : ℕ)
    if framecount ≤ 1 then (loop_start, loop_end)
    else
      let max_frame := framecount - 1
      let ls := max 0 (min loop_start max_frame)
      let le := max (ls + 1) (min loop_end max_frame)
      let adjusted_start := find_nearest_zero_crossing pcm channels ls .both
        max_distance 0 (some (max (le - 1) 0)) threshold
      let adjusted_end := find_nearest_zero_crossing pcm channels le .both
        max_distance (min (adjusted_start + 1) max_frame) (some max_frame) threshold
      if adjusted_end ≤ adjusted_start then (loop_start, loop_end)
      else (adjusted_start, adjusted_end)

/-- The loop fields of one output region of `_write_multisample_preset`
(converter.py lines 444-467), given the already-resampled PCM and the
already-rescaled loop bounds.  Returns the final
`(loop_start, loop_end, loop_enabled, loop_on_release)` together with the
pre-zero-crossing clamped bounds and whether the `invalid_loop` warning
branch fired. -/
structure RegionLoop where
  loop_start : ℤ
  loop_end : ℤ
  loop_enabled : Bool
  loop_on_release : Bool
  clamped_start : ℤ
  clamped_end : ℤ
  invalid_loop_warned : Bool
deriving DecidableEq

def finalize_region_loop (pcm : List ℤ) (channels : ℕ) (loop_start loop_end : ℤ)
    (loop_enabled loop_on_release : Bool) (zero_crossing : Bool)
    (max_distance threshold : ℤ) : RegionLoop :=
  let framecount : ℤ := (pcm.length / channels : ℕ)
  if loop_enabled then
    let ls := max 0 (min loop_start (framecount - 1))
    let le := max (ls + 1) (min loop_end framecount)
    if le ≤ ls then
      ⟨ls, le, false, loop_on_release, ls, le, true⟩
    else if zero_crossing then
      let p := adjust_loop_zero_crossing pcm channels ls le max_distance threshold
      ⟨p.1, p.2, true, loop_on_release, ls, le, false⟩
    else
      ⟨ls, le, true, loop_on_release, ls, le, false⟩
  else
    ⟨0, 0, false, loop_on_release, 0, 0, false⟩

/-! ## `converter.py` — drum zone selection by velocity (`closest` mode)

Zones are handled through their index in the input list, mirroring the
Python code's use of object identity (`zone is best_zone`). -/

/-- `_velocity_distance(vel_range, velocities)`: 0 when some target velocity
falls inside the range, the minimal distance to a range edge otherwise, and
999 when there are no target velocities. -/
def velocity_distance_go (low high : ℤ) : List ℤ → Option ℤ → ℤ
  | [], best => best.getD 999
  | v :: rest, best =>
    if low ≤ v ∧ v ≤ high then 0
    else
      let dist := min |v - low| |v - high|
      match best with
      | none => velocity_distance_go low high rest (some dist)
      | some b =>
        if dist < b then velocity_distance_go low high rest (some dist)
        else velocity_distance_go low high rest (some b)

def velocity_distance (vel_range : ℤ × ℤ) (velocities : List ℤ) : ℤ :=
  velocity_distance_go vel_range.1 vel_range.2 velocities none

/-- Python's lexicographic `<` on the 3-tuple `(dist, width, -low)`. -/
def tupLt (a b : ℤ × ℤ × ℤ) : Bool :=
  decide (a.1 < b.1 ∨ (a.1 = b.1 ∧ (a.2.1 < b.2.1 ∨ (a.2.1 = b.2.1 ∧ a.2.2 < b.2.2))))

/-- The selection key `(dist, width, -range_low)` of one zone. -/
def velKey (z : MZone) (velocities : List ℤ) : ℤ × ℤ × ℤ :=
  (velocity_distance z.vel_range velocities, z.vel_range.2 - z.vel_range.1, -z.vel_range.1)

/-- Inner loop of `_select_drum_zones_by_velocity`: choose the zone of the
group minimising the key tuple (first zone wins ties). -/
def pick_best_go (velocities : List ℤ) :
    List (ℕ × MZone) → Option (ℕ × (ℤ × ℤ × ℤ)) → Option (ℕ × (ℤ × ℤ × ℤ))
  | [], best => best
  | (i, z) :: rest, best =>
    let k := velKey z velocities
    match best with
    | none => pick_best_go velocities rest (some (i, k))
    | some (bi, bk) =>
      if tupLt k bk then pick_best_go velocities rest (some (i, k))
      else pick_best_go velocities rest (some (bi, bk))

def pick_best (velocities : List ℤ) (group : List (ℕ × MZone)) : Option ℕ :=
  (pick_best_go velocities group none).map Prod.fst

/-- `grouped.setdefault(root, []).append(zone)`: append the indexed zone to
the group of its root key, creating the group at the end on first sight. -/
def add_to_group (gs : List (ℤ × List (ℕ × MZone))) (root : ℤ) (p : ℕ × MZone) :
    List (ℤ × List (ℕ × MZone)) :=
  match gs with
  | [] => [(root, [p])]
  | (r, ps) :: rest =>
    if r = root then (r, ps ++ [p]) :: rest
    else (r, ps) :: add_to_group rest root p

def group_by_root (pairs : List (ℕ × MZone)) : List (ℤ × List (ℕ × MZone)) :=
  pairs.foldl (fun gs p => add_to_group gs p.2.root_key p) []

/-- Outcome of `_select_drum_zones_by_velocity`: selected zone indices, the
indices discarded with reason `drum_velocity_choice`, and the root keys for
which a `drum_velocity_missing` warning was logged. -/
structure DrumSel where
  selected : List ℕ
  discarded : List ℕ
  missing : List ℤ
deriving DecidableEq

def drum_sel_go (velocities : List ℤ) :
    List (ℤ × List (ℕ × MZone)) → DrumSel
  | [] => ⟨[], [], []⟩
  | (root, group) :: rest =>
    let r := drum_sel_go velocities rest
    match pick_best velocities group with
    | some b =>
      ⟨b :: r.selected, (group.map Prod.fst).filter (fun i => i ≠ b) ++ r.discarded,
        r.missing⟩
    | none => ⟨r.selected, r.discarded, root :: r.missing⟩

def select_drum_zones_by_velocity (zones : List MZone) (velocities : List ℤ) : DrumSel :=
  drum_sel_go velocities (group_by_root zones.enum)

/-! ## `sf2_reader.py` — per-zone resolution of the generator-bag hierarchy

A generator bag maps generator ids to raw unsigned 16-bit amounts; the
sf2utils accessors `.short`, `.word` and `.amount_as_sorted_range` are
embedded as views of the raw amount. -/

structure Bag where
  gens : List (ℕ × ℕ)
deriving DecidableEq

def Bag.get (b : Bag) (oper : ℕ) : Option ℕ := b.gens.lookup oper

/-- `gen.short`: the amount as a signed 16-bit value. -/
def gen_short (raw : ℕ) : ℤ := if raw < 32768 then (raw : ℤ) else (raw : ℤ) - 65536

/-- `gen.amount_as_sorted_range`: the two bytes of the amount as a sorted pair. -/
def gen_sorted_range (raw : ℕ) : ℤ × ℤ :=
  let b0 := raw % 256
  let b1 := raw / 256 % 256
  ((min b0 b1 : ℕ), (max b0 b1 : ℕ))

/-- Generator ids of `sf2utils.generator.Sf2Gen` used by the reader. -/
def OPER_START_ADDR_OFFSET : ℕ := 0
def OPER_END_ADDR_OFFSET : ℕ := 1
def OPER_START_LOOP_ADDR_OFFSET : ℕ := 2
def OPER_END_LOOP_ADDR_OFFSET : ℕ := 3
def OPER_START_ADDR_COARSE_OFFSET : ℕ := 4
def OPER_END_ADDR_COARSE_OFFSET : ℕ := 12
def OPER_CHORUS_EFFECTS_SEND : ℕ := 15
def OPER_REVERB_EFFECTS_SEND : ℕ := 16
def OPER_DELAY_MOD_ENV : ℕ := 25
def OPER_ATTACK_MOD_ENV : ℕ := 26
def OPER_HOLD_MOD_ENV : ℕ := 27
def OPER_DECAY_MOD_ENV : ℕ := 28
def OPER_SUSTAIN_MOD_ENV : ℕ := 29
def OPER_RELEASE_MOD_ENV : ℕ := 30
def OPER_DELAY_VOL_ENV : ℕ := 33
def OPER_ATTACK_VOL_ENV : ℕ := 34
def OPER_HOLD_VOL_ENV : ℕ := 35
def OPER_DECAY_VOL_ENV : ℕ := 36
def OPER_SUSTAIN_VOL_ENV : ℕ := 37
def OPER_RELEASE_VOL_ENV : ℕ := 38
def OPER_KEY_RANGE : ℕ := 43
def OPER_VEL_RANGE : ℕ := 44
def OPER_START_LOOP_ADDR_COARSE_OFFSET : ℕ := 45
def OPER_END_LOOP_ADDR_COARSE_OFFSET : ℕ := 50
def OPER_COARSE_TUNE : ℕ := 51
def OPER_FINE_TUNE : ℕ := 52
def OPER_SAMPLE_MODES : ℕ := 54
def OPER_EXCLUSIVE_CLASS : ℕ := 57
def OPER_OVERRIDING_ROOT_KEY : ℕ := 58

/-- `_get_range(bag, oper)`. -/
def get_range (bag : Option Bag) (oper : ℕ) : Option (ℤ × ℤ) :=
  match bag with
  | none => none
  | some b => (b.get oper).map gen_sorted_range

/-- `_sum_short(bags, oper)`: total of the signed amounts plus a presence flag. -/
def sum_short (bags : List Bag) (oper : ℕ) : ℤ × Bool :=
  bags.foldl (fun acc b =>
    match b.get oper with
    | some raw => (acc.1 + gen_short raw, true)
    | none => acc) (0, false)

/-- `_sum_word(bags, oper)`: total of the unsigned amounts plus a presence flag. -/
def sum_word (bags : List Bag) (oper : ℕ) : ℤ × Bool :=
  bags.foldl (fun acc b =>
    match b.get oper with
    | some raw => (acc.1 + (raw : ℤ), true)
    | none => acc) (0, false)

/-- `_first_word(bags, oper)`: the first present amount, skipping absent bags. -/
def first_word (bags : List (Option Bag)) (oper : ℕ) : Option ℕ :=
  match bags with
  | [] => none
  | none :: rest => first_word rest oper
  | some b :: rest =>
    match b.get oper with
    | some raw => some raw
    | none => first_word rest oper

/-- `_sum_offset(bags, oper, coarse_oper)`: fine plus 32768 × coarse offsets
accumulated over all bags. -/
def sum_offset (bags : List Bag) (oper coarse_oper : ℕ) : ℤ :=
  bags.foldl (fun acc b =>
    let acc1 := match b.get oper with
      | some raw => acc + gen_short raw
      | none => acc
    match b.get coarse_oper with
    | some raw => acc1 + gen_short raw * 32768
    | none => acc1) 0

/-- `_intersect_ranges(a, b)`. -/
def intersect_ranges : Option (ℤ × ℤ) → Option (ℤ × ℤ) → Option (ℤ × ℤ)
  | none, none => none
  | none, some b => some b
  | some a, none => some a
  | some a, some b => some (max a.1 b.1, min a.2 b.2)

/-- The decoded sample pair a zone refers to (`_get_sample_pair`'s result):
interleaved PCM, rate, channel count, native loop points and pitch data. -/
structure SampleInfo where
  pcm : List ℤ
  rate : ℕ
  channels : ℕ
  loop_start : ℤ
  loop_end : ℤ
  pitch_correction : ℤ
  original_pitch : ℤ
deriving DecidableEq

structure EnvValues where
  delay_tc : Option ℤ
  attack_tc : Option ℤ
  hold_tc : Option ℤ
  decay_tc : Option ℤ
  sustain_cb : Option ℤ
  release_tc : Option ℤ
deriving DecidableEq

/-- The `present` field stored with each envelope dict. -/
def EnvValues.present (e : EnvValues) : Bool :=
  e.delay_tc.isSome || e.attack_tc.isSome || e.hold_tc.isSome || e.decay_tc.isSome
    || e.sustain_cb.isSome || e.release_tc.isSome

structure FxSend where
  chorus : ℚ
  reverb : ℚ
  present : Bool
deriving DecidableEq

structure SampleOut where
  data : List ℤ
  rate : ℕ
  channels : ℕ
deriving DecidableEq

/-- One flattened zone record as appended to `preset_zones` (the name fields
are omitted: no checked claim concerns them). -/
structure Zone where
  root_key : ℤ
  key_range : ℤ × ℤ
  vel_range : ℤ × ℤ
  sample : SampleOut
  loop_start : ℤ
  loop_end : ℤ
  loop_enabled : Bool
  loop_on_release : Bool
  amp_env : EnvValues
  mod_env : EnvValues
  fx_send : FxSend
  exclusive_class : ℤ
deriving DecidableEq

def Zone.framecount (z : Zone) : ℕ := z.sample.data.length / z.sample.channels

def sum_short_opt (bags : List Bag) (oper : ℕ) : Option ℤ :=
  if (sum_short bags oper).2 then some (sum_short bags oper).1 else none

def sum_word_opt (bags : List Bag) (oper : ℕ) : Option ℤ :=
  if (sum_word bags oper).2 then some (sum_word bags oper).1 else none

/-- `bags = [b for b in (preset_global, bag, instrument_global, inst_bag) if b is not None]`. -/
def zone_bags (pg : Option Bag) (pl : Bag) (ig : Option Bag) (il : Bag) : List Bag :=
  [pg, some pl, ig, some il].filterMap id

/-- The bag list `(inst_bag, instrument_global, bag, preset_global)` used for
the root-key override and the sample-mode lookup. -/
def priority_bags (pg : Option Bag) (pl : Bag) (ig : Option Bag) (il : Bag) :
    List (Option Bag) :=
  [some il, ig, some pl, pg]

def resolve_start_frame (bags : List Bag) : ℤ :=
  max 0 (sum_offset bags OPER_START_ADDR_OFFSET OPER_START_ADDR_COARSE_OFFSET)

def total_frames_of (smp : SampleInfo) : ℤ :=
  ((smp.pcm.length / smp.channels : ℕ) : ℤ)

def resolve_end_frame (bags : List Bag) (smp : SampleInfo) : ℤ :=
  max (resolve_start_frame bags + 1)
    (min (total_frames_of smp)
      (total_frames_of smp + sum_offset bags OPER_END_ADDR_OFFSET OPER_END_ADDR_COARSE_OFFSET))

/-- The pre-clamp loop start: native loop point plus accumulated loop offsets,
shifted into the trimmed sample's coordinate space. -/
def raw_loop_start (pg : Option Bag) (pl : Bag) (ig : Option Bag) (il : Bag)
    (smp : SampleInfo) : ℤ :=
  smp.loop_start
    + sum_offset (zone_bags pg pl ig il) OPER_START_LOOP_ADDR_OFFSET
        OPER_START_LOOP_ADDR_COARSE_OFFSET
    - resolve_start_frame (zone_bags pg pl ig il)

/-- The pre-clamp loop end, analogously. -/
def raw_loop_end (pg : Option Bag) (pl : Bag) (ig : Option Bag) (il : Bag)
    (smp : SampleInfo) : ℤ :=
  smp.loop_end
    + sum_offset (zone_bags pg pl ig il) OPER_END_LOOP_ADDR_OFFSET
        OPER_END_LOOP_ADDR_COARSE_OFFSET
    - resolve_start_frame (zone_bags pg pl ig il)

/-- The resolved sample mode (defaulting to 0 = no loop). -/
def resolve_sample_mode (pg : Option Bag) (pl : Bag) (ig : Option Bag) (il : Bag) : ℕ :=
  (first_word (priority_bags pg pl ig il) OPER_SAMPLE_MODES).getD 0

/-- The loop block of the reader's zone resolution: when the pre-clamp loop
bounds are ordered and the sample mode is nonzero, clamp the start into
`[0, frame_count - 1]` and the end into `[start + 1, frame_count]`, enable
the loop and derive the on-release flag from mode bit 1; otherwise keep the
raw bounds with the loop disabled.  Returns
`(loop_start, loop_end, loop_enabled, loop_on_release)`. -/
def loop_fields (ls0 le0 : ℤ) (mode : ℕ) (fc : ℕ) : ℤ × ℤ × Bool × Bool :=
  if ls0 < le0 ∧ mode ≠ 0 then
    let ls := max 0 (min ls0 ((fc : ℤ) - 1))
    (ls, max (ls + 1) (min le0 (fc : ℤ)), true, decide (mode &&& 2 ≠ 0))
  else (ls0, le0, false, false)

/-- The body of `extract_presets`' innermost loop: resolve one
(preset-local, instrument-local) bag pair against its sample into a zone,
or `none` when the zone is skipped (`invalid_range`, `start_offset_oob`,
`empty_sample`). -/
def resolve_zone (pg : Option Bag) (pl : Bag) (ig : Option Bag) (il : Bag)
    (smp : SampleInfo) : Option Zone :=
  let bags := zone_bags pg pl ig il
  let preset_key := (get_range (some pl) OPER_KEY_RANGE).orElse
    (fun _ => get_range pg OPER_KEY_RANGE)
  let inst_key := (get_range (some il) OPER_KEY_RANGE).orElse
    (fun _ => get_range ig OPER_KEY_RANGE)
  let key_range := (intersect_ranges preset_key inst_key).getD (0, 127)
  let preset_vel := (get_range (some pl) OPER_VEL_RANGE).orElse
    (fun _ => get_range pg OPER_VEL_RANGE)
  let inst_vel := (get_range (some il) OPER_VEL_RANGE).orElse
    (fun _ => get_range ig OPER_VEL_RANGE)
  let vel_range := (intersect_ranges preset_vel inst_vel).getD (0, 127)
  if key_range.1 > key_range.2 ∨ vel_range.1 > vel_range.2 then none
  else
    let root_override := first_word (priority_bags pg pl ig il) OPER_OVERRIDING_ROOT_KEY
    let coarse := (sum_short bags OPER_COARSE_TUNE).1
    let fine := (sum_short bags OPER_FINE_TUNE).1 + smp.pitch_correction
    let root_key0 : ℤ := match root_override with
      | some raw => (raw : ℤ)
      | none => smp.original_pitch
    let root_key := max 0 (min 127 (root_key0 + coarse + round_div_half_even fine 100))
    let start_frame := resolve_start_frame bags
    let end_frame := resolve_end_frame bags smp
    if start_frame ≥ total_frames_of smp then none
    else
      let loop_start := raw_loop_start pg pl ig il smp
      let loop_end := raw_loop_end pg pl ig il smp
      let pcm := (smp.pcm.drop (start_frame * smp.channels).toNat).take
        ((end_frame * smp.channels).toNat - (start_frame * smp.channels).toNat)
      let frame_count : ℕ := pcm.length / smp.channels
      if frame_count ≤ 0 then none
      else
        let sample_mode := resolve_sample_mode pg pl ig il
        let lp := loop_fields loop_start loop_end sample_mode frame_count
        some
          { root_key := root_key
            key_range := key_range
            vel_range := vel_range
            sample := ⟨pcm, smp.rate, smp.channels⟩
            loop_start := lp.1
            loop_end := lp.2.1
            loop_enabled := lp.2.2.1
            loop_on_release := lp.2.2.2
            amp_env :=
              ⟨sum_short_opt bags OPER_DELAY_VOL_ENV, sum_short_opt bags OPER_ATTACK_VOL_ENV,
                sum_short_opt bags OPER_HOLD_VOL_ENV, sum_short_opt bags OPER_DECAY_VOL_ENV,
                sum_word_opt bags OPER_SUSTAIN_VOL_ENV, sum_short_opt bags OPER_RELEASE_VOL_ENV⟩
            mod_env :=
              ⟨sum_short_opt bags OPER_DELAY_MOD_ENV, sum_short_opt bags OPER_ATTACK_MOD_ENV,
                sum_short_opt bags OPER_HOLD_MOD_ENV, sum_short_opt bags OPER_DECAY_MOD_ENV,
                sum_word_opt bags OPER_SUSTAIN_MOD_ENV, sum_short_opt bags OPER_RELEASE_MOD_ENV⟩
            fx_send :=
              ⟨min 100 (max 0 (((sum_word bags OPER_CHORUS_EFFECTS_SEND).1 : ℚ) / 10)),
                min 100 (max 0 (((sum_word bags OPER_REVERB_EFFECTS_SEND).1 : ℚ) / 10)),
                (sum_word bags OPER_CHORUS_EFFECTS_SEND).2
                  || (sum_word bags OPER_REVERB_EFFECTS_SEND).2⟩
            exclusive_class :=
              match first_word (bags.map some) OPER_EXCLUSIVE_CLASS with
              | some raw => (raw : ℤ)
              | none => 0 }

/-- The claim's reading of the exclusive-class lookup: search the bags in the
priority order instrument-local → instrument-global → preset-local →
preset-global and take the first present value, defaulting to 0. -/
def exclusive_class_spec_order (pg : Option Bag) (pl : Bag) (ig : Option Bag)
    (il : Bag) : ℤ :=
  match first_word (priority_bags pg pl ig il) OPER_EXCLUSIVE_CLASS with
  | some raw => (raw : ℤ)
  | none => 0

/-! ## Concrete inputs used by witnesses and counterexamples -/

/-- A 10-frame mono sample whose recorded loop end (20) lies beyond the
sample, with no pitch correction and original pitch 60. -/
def smpC1 : SampleInfo := ⟨List.replicate 10 0, 44100, 1, 3, 20, 0, 60⟩

/-- The zone resolved from `smpC1` with looping enabled (sample-mode 1 on the
instrument-local bag). -/
def zW2 : Zone := (resolve_zone none ⟨[]⟩ none ⟨[(54, 1)]⟩ smpC1).get (by rfl)

/-! ## Claim theorems -/

/-- Helper for the loop-field bounds of `resolve_zone`: the four components
of `loop_fields` satisfy the clamping equations and bounds. -/
theorem loop_fields_spec (ls0 le0 : ℤ) (mode : ℕ) (fc : ℕ) (hfc : 0 < fc) :
    (loop_fields ls0 le0 mode fc).2.2.1 = decide (ls0 < le0 ∧ mode ≠ 0) ∧
    ((loop_fields ls0 le0 mode fc).2.2.1 = true →
      (loop_fields ls0 le0 mode fc).1 = max 0 (min ls0 ((fc : ℤ) - 1)) ∧
      (loop_fields ls0 le0 mode fc).2.1
        = max ((loop_fields ls0 le0 mode fc).1 + 1) (min le0 (fc : ℤ)) ∧
      0 ≤ (loop_fields ls0 le0 mode fc).1 ∧
      (loop_fields ls0 le0 mode fc).1 < (loop_fields ls0 le0 mode fc).2.1 ∧
      (loop_fields ls0 le0 mode fc).2.1 ≤ (fc : ℤ)) ∧
    ((loop_fields ls0 le0 mode fc).2.2.1 = false →
      (loop_fields ls0 le0 mode fc).1 = ls0 ∧ (loop_fields ls0 le0 mode fc).2.1 = le0) ∧
    (loop_fields ls0 le0 mode fc).2.2.2
      = ((loop_fields ls0 le0 mode fc).2.2.1 && decide (mode &&& 2 ≠ 0)) := by
  unfold loop_fields
  by_cases hc : ls0 < le0 ∧ mode ≠ 0
  · rw [if_pos hc]
    refine ⟨(decide_eq_true hc).symm, fun _ => ⟨rfl, rfl, ?_, ?_, ?_⟩,
      fun hf => absurd hf (by simp), by simp⟩
    · show (0 : ℤ) ≤ max 0 (min ls0 ((fc : ℤ) - 1))
      omega
    · show max 0 (min ls0 ((fc : ℤ) - 1))
        < max (max 0 (min ls0 ((fc : ℤ) - 1)) + 1) (min le0 (fc : ℤ))
      omega
    · show max (max 0 (min ls0 ((fc : ℤ) - 1)) + 1) (min le0 (fc : ℤ)) ≤ (fc : ℤ)
      omega
  · rw [if_neg hc]
    exact ⟨(decide_eq_false hc).symm, fun ht => absurd ht (by simp),
      fun _ => ⟨rfl, rfl⟩, by simp⟩

/-- C1 (amended): for every zone resolved from a (preset-local,
instrument-local) bag pair, the exclusive-class value is the first present
value found when searching the non-absent bags in the order preset-global,
preset-local, instrument-global, instrument-local (the order of the reader's
`bags` list); when no bag defines it, the zone's exclusive class is 0. -/
theorem resolve_zone_exclusive_class (pg : Option Bag) (pl : Bag) (ig : Option Bag)
    (il : Bag) (smp : SampleInfo) (z : Zone)
    (h : resolve_zone pg pl ig il smp = some z) :
    z.exclusive_class =
      match first_word ((zone_bags pg pl ig il).map some) OPER_EXCLUSIVE_CLASS with
      | some raw => (raw : ℤ)
      | none => 0 := by
  simp only [resolve_zone] at h
  split_ifs at h
  all_goals
    first
      | exact Option.noConfusion h
      | (rw [Option.some.injEq] at h; subst h; rfl)

/-- C1 witness: the amended exclusive-class rule instantiated at a concrete
bag configuration. -/
theorem resolve_zone_exclusive_class_witness :
    ((resolve_zone (some ⟨[(57, 3)]⟩) ⟨[]⟩ none ⟨[(57, 5)]⟩ smpC1).get (by rfl)).exclusive_class
      = match first_word ((zone_bags (some ⟨[(57, 3)]⟩) ⟨[]⟩ none ⟨[(57, 5)]⟩).map some)
            OPER_EXCLUSIVE_CLASS with
        | some raw => (raw : ℤ)
        | none => 0 :=
  resolve_zone_exclusive_class _ _ _ _ _ _ (Option.some_get (by rfl)).symm

/-- C1 counterexample: with exclusive class 3 on the preset-global bag and 5
on the instrument-local bag, the code resolves 3 (preset-global first), while
the claimed instrument-local-first priority order would give 5. -/
theorem resolve_zone_exclusive_class_cex :
    (resolve_zone (some ⟨[(57, 3)]⟩) ⟨[]⟩ none ⟨[(57, 5)]⟩ smpC1).map Zone.exclusive_class
        = some 3
      ∧ exclusive_class_spec_order (some ⟨[(57, 3)]⟩) ⟨[]⟩ none ⟨[(57, 5)]⟩ = 5
      ∧ (3 : ℤ) ≠ 5 :=
  ⟨by decide, by decide, by decide⟩

/-- C2 (amended): in every zone emitted by the resolver, the loop-enabled
flag is set iff the shifted loop bounds are ordered and the resolved
sample-mode is nonzero; when it is set, the loop start is the shifted native
start clamped into `[0, framecount - 1]`, the loop end is the shifted native
end clamped into `[start + 1, framecount]`, and both lie within
`[0, framecount]` with start < end; when it is not set, the zone keeps the
unclamped shifted bounds.  Sample-mode bit 1 sets the loop-on-release flag
(on enabled loops). -/
theorem resolve_zone_loop_bounds (pg : Option Bag) (pl : Bag) (ig : Option Bag)
    (il : Bag) (smp : SampleInfo) (z : Zone)
    (h : resolve_zone pg pl ig il smp = some z) :
    z.loop_enabled
        = decide (raw_loop_start pg pl ig il smp < raw_loop_end pg pl ig il smp
            ∧ resolve_sample_mode pg pl ig il ≠ 0) ∧
    (z.loop_enabled = true →
      z.loop_start
          = max 0 (min (raw_loop_start pg pl ig il smp) ((z.framecount : ℤ) - 1)) ∧
      z.loop_end
          = max (z.loop_start + 1) (min (raw_loop_end pg pl ig il smp) (z.framecount : ℤ)) ∧
      0 ≤ z.loop_start ∧ z.loop_start < z.loop_end ∧ z.loop_end ≤ (z.framecount : ℤ)) ∧
    (z.loop_enabled = false →
      z.loop_start = raw_loop_start pg pl ig il smp
        ∧ z.loop_end = raw_loop_end pg pl ig il smp) ∧
    z.loop_on_release
      = (z.loop_enabled && decide (resolve_sample_mode pg pl ig il &&& 2 ≠ 0)) := by
  simp only [resolve_zone] at h
  split_ifs at h
  all_goals
    first
      | exact Option.noConfusion h
      | (rw [Option.some.injEq] at h
         subst h
         exact loop_fields_spec _ _ _ _ (Nat.not_le.mp (by assumption)))

/-- C2 witness: on a concrete looping zone the final loop bounds satisfy
`0 ≤ start < end ≤ framecount`. -/
theorem resolve_zone_loop_bounds_witness :
    0 ≤ zW2.loop_start ∧ zW2.loop_start < zW2.loop_end
      ∧ zW2.loop_end ≤ (zW2.framecount : ℤ) :=
  ((resolve_zone_loop_bounds none ⟨[]⟩ none ⟨[(54, 1)]⟩ smpC1 zW2
      (Option.some_get (by rfl)).symm).2.1 (by decide)).2.2

/-- C2 counterexample: a zone whose sample-mode is absent (no looping) is
emitted with its unclamped loop end 20, greater than its trimmed length 10 —
the output values do not always lie in `[0, trimmed_length]`. -/
theorem resolve_zone_loop_bounds_cex :
    (resolve_zone none ⟨[]⟩ none ⟨[]⟩ smpC1).map (fun z => (z.loop_end, (z.framecount : ℤ)))
        = some (20, 10) ∧ ¬ ((20 : ℤ) ≤ 10) :=
  ⟨by decide, by decide⟩

/-- C3: `apply_loop_end_offset` returns `loop_end + offset` clamped into
`(loop_start, framecount]`: offset -1 on (10, 20, 30) gives 19, an offset
driving the result below `loop_start + 1` clamps to `loop_start + 1`, and an
offset driving it above `framecount` clamps to `framecount`. -/
theorem apply_loop_end_offset_clamps (ls le fc off : ℤ) (h : ls + 1 ≤ fc) :
    apply_loop_end_offset 10 20 30 (-1) = 19 ∧
    (le + off < ls + 1 → apply_loop_end_offset ls le fc off = ls + 1) ∧
    (fc < le + off → apply_loop_end_offset ls le fc off = fc) ∧
    (ls + 1 ≤ le + off → le + off ≤ fc → apply_loop_end_offset ls le fc off = le + off) := by
  unfold apply_loop_end_offset
  refine ⟨by norm_num, ?_, ?_, ?_⟩ <;> intros <;> omega

/-- C3 witness: the low clamp at the tests' concrete input. -/
theorem apply_loop_end_offset_clamps_witness :
    apply_loop_end_offset 10 11 30 (-5) = 11 :=
  (apply_loop_end_offset_clamps 10 11 30 (-5) (by norm_num)).2.1 (by norm_num)

/-- C4: with equal source and destination rates both resamplers return the
sample list unchanged. -/
theorem resample_identity_at_equal_rates (x : List ℤ) (r : ℕ) :
    resample_linear x r r = x ∧ resample_sinc x r r 16 = x := by
  constructor
  · unfold resample_linear
    simp
  · unfold resample_sinc
    simp

/-- C7: the release curve maps 0 s to 32767, everything at or above 30 s to
0, and 4 s into [15000, 18000]. -/
theorem scale_release_seconds_spec (s : ℝ) (hs : 30 ≤ s) :
    scale_release_seconds 0 = 32767 ∧ scale_release_seconds s = 0 ∧
      15000 ≤ scale_release_seconds 4 ∧ scale_release_seconds 4 ≤ 18000 := by
  have hR : RELEASE_MAX_SECONDS = (30 : ℝ) := by norm_num [RELEASE_MAX_SECONDS]
  have hz : pyRound (0 : ℝ) = 0 := by
    unfold pyRound
    norm_num
  refine ⟨?_, ?_, ?_, ?_⟩
  · unfold scale_release_seconds
    rw [if_pos le_rfl]
  · unfold scale_release_seconds
    rw [if_neg (by linarith)]
    dsimp only
    rw [hR, min_eq_right hs]
    norm_num [Real.one_rpow]
    exact hz
  · unfold scale_release_seconds
    rw [if_neg (by norm_num)]
    dsimp only
    rw [hR]
    have hm : min (4 : ℝ) 30 = 4 := by norm_num
    rw [hm]
    have h0 : (0 : ℝ) ≤ 4 / 30 := by norm_num
    have hcube : (((4 : ℝ) / 30) ^ ((1 : ℝ) / 3)) ^ (3 : ℕ) = 4 / 30 := by
      rw [← Real.rpow_natCast (((4 : ℝ) / 30) ^ ((1 : ℝ) / 3)) 3, ← Real.rpow_mul h0]
      norm_num
    have hhi : ((4 : ℝ) / 30) ^ ((1 : ℝ) / 3) ≤ 52 / 100 := by
      by_contra hcon
      push_neg at hcon
      have h2 : ((52 : ℝ) / 100) ^ (3 : ℕ) < (((4 : ℝ) / 30) ^ ((1 : ℝ) / 3)) ^ (3 : ℕ) :=
        pow_lt_pow_left₀ hcon (by norm_num) (by norm_num)
      rw [hcube] at h2
      norm_num at h2
    apply le_pyRound
    push_cast
    nlinarith [hhi]
  · unfold scale_release_seconds
    rw [if_neg (by norm_num)]
    dsimp only
    rw [hR]
    have hm : min (4 : ℝ) 30 = 4 := by norm_num
    rw [hm]
    have h0 : (0 : ℝ) ≤ 4 / 30 := by norm_num
    have hr0 : 0 ≤ ((4 : ℝ) / 30) ^ ((1 : ℝ) / 3) := Real.rpow_nonneg h0 _
    have hcube : (((4 : ℝ) / 30) ^ ((1 : ℝ) / 3)) ^ (3 : ℕ) = 4 / 30 := by
      rw [← Real.rpow_natCast (((4 : ℝ) / 30) ^ ((1 : ℝ) / 3)) 3, ← Real.rpow_mul h0]
      norm_num
    have hlo : (51 / 100 : ℝ) ≤ ((4 : ℝ) / 30) ^ ((1 : ℝ) / 3) := by
      by_contra hcon
      push_neg at hcon
      have h2 : (((4 : ℝ) / 30) ^ ((1 : ℝ) / 3)) ^ (3 : ℕ) < ((51 : ℝ) / 100) ^ (3 : ℕ) :=
        pow_lt_pow_left₀ hcon hr0 (by norm_num)
      rw [hcube] at h2
      norm_num at h2
    apply pyRound_le
    push_cast
    nlinarith [hlo]

/-- C7 witness: the release-curve facts instantiated at 30 s. -/
theorem scale_release_seconds_spec_witness :
    scale_release_seconds 0 = 32767 ∧ scale_release_seconds 30 = 0 ∧
      15000 ≤ scale_release_seconds 4 ∧ scale_release_seconds 4 ≤ 18000 :=
  scale_release_seconds_spec 30 (by norm_num)


/-- C10: linear resampling keeps every output sample inside the signed
16-bit range whenever every input sample is, with no explicit clamp: each
output value rounds a convex combination of two input samples. -/
theorem resample_linear_preserves_range (samples : List ℤ)
    (h : ∀ s ∈ samples, -32768 ≤ s ∧ s ≤ 32767) (src_rate dst_rate : ℕ) :
    ∀ y ∈ resample_linear samples src_rate dst_rate, -32768 ≤ y ∧ y ≤ 32767 := by
  intro y hy
  unfold resample_linear at hy
  split_ifs at hy with heq
  · exact h y hy
  · dsimp only at hy
    rcases List.mem_map.mp hy with ⟨i, hi, rfl⟩
    rw [List.mem_range] at hi
    set ratio : ℝ := (dst_rate : ℝ) / (src_rate : ℝ) with hratio
    set L := samples.length with hL
    have hr_nonneg : 0 ≤ ratio := by
      rw [hratio]; positivity
    have hfl_pos : 0 < ⌊(L : ℝ) * ratio⌋ := by omega
    have hx1 : (1 : ℝ) ≤ (L : ℝ) * ratio := by
      have h4 : (1 : ℤ) ≤ ⌊(L : ℝ) * ratio⌋ := by omega
      have h5 := Int.le_floor.mp h4
      exact_mod_cast h5
    have hratio_pos : 0 < ratio := by
      by_contra hcon
      push_neg at hcon
      have hL0 : (0 : ℝ) ≤ (L : ℝ) := by positivity
      nlinarith [mul_nonpos_of_nonneg_of_nonpos hL0 hcon]
    have hsp_nonneg : 0 ≤ (i : ℝ) / ratio := by positivity
    have hfloor_nonneg : 0 ≤ ⌊(i : ℝ) / ratio⌋ := Int.floor_nonneg.mpr hsp_nonneg
    have h2 : ((⌊(L : ℝ) * ratio⌋.toNat : ℕ) : ℝ) ≤ (L : ℝ) * ratio := by
      have h3 : ((⌊(L : ℝ) * ratio⌋.toNat : ℕ) : ℤ) = ⌊(L : ℝ) * ratio⌋ :=
        Int.toNat_of_nonneg (by omega)
      calc ((⌊(L : ℝ) * ratio⌋.toNat : ℕ) : ℝ) = ((⌊(L : ℝ) * ratio⌋ : ℤ) : ℝ) := by
            exact_mod_cast congrArg (fun z : ℤ => (z : ℝ)) h3
        _ ≤ (L : ℝ) * ratio := Int.floor_le _
    have hi_lt : (i : ℝ) < (L : ℝ) * ratio := by
      have h1 : (i : ℝ) < ((⌊(L : ℝ) * ratio⌋.toNat : ℕ) : ℝ) := by exact_mod_cast hi
      linarith
    have hsp_lt : (i : ℝ) / ratio < (L : ℝ) := by
      rw [div_lt_iff₀ hratio_pos]
      exact hi_lt
    have hfloor_lt : ⌊(i : ℝ) / ratio⌋ < (L : ℤ) := by
      rw [Int.floor_lt]
      exact_mod_cast hsp_lt
    have hi0 : (⌊(i : ℝ) / ratio⌋).toNat < L := by omega
    have hi1 : min ((⌊(i : ℝ) / ratio⌋).toNat + 1) (L - 1) < L := by omega
    have hfr0 : 0 ≤ (i : ℝ) / ratio - (⌊(i : ℝ) / ratio⌋ : ℝ) := by
      linarith [Int.floor_le ((i : ℝ) / ratio)]
    have hfr1 : (i : ℝ) / ratio - (⌊(i : ℝ) / ratio⌋ : ℝ) ≤ 1 := by
      linarith [Int.lt_floor_add_one ((i : ℝ) / ratio)]
    rw [List.getD_eq_getElem _ _ hi0, List.getD_eq_getElem _ _ hi1]
    have hb0 := h _ (List.getElem_mem hi0)
    have hb1 := h _ (List.getElem_mem hi1)
    have ha0 : (-32768 : ℝ) ≤ ((samples[(⌊(i : ℝ) / ratio⌋).toNat] : ℤ) : ℝ) := by
      exact_mod_cast hb0.1
    have ha1 : ((samples[(⌊(i : ℝ) / ratio⌋).toNat] : ℤ) : ℝ) ≤ 32767 := by
      exact_mod_cast hb0.2
    have hc0 : (-32768 : ℝ)
        ≤ ((samples[min ((⌊(i : ℝ) / ratio⌋).toNat + 1) (L - 1)] : ℤ) : ℝ) := by
      exact_mod_cast hb1.1
    have hc1 : ((samples[min ((⌊(i : ℝ) / ratio⌋).toNat + 1) (L - 1)] : ℤ) : ℝ) ≤ 32767 := by
      exact_mod_cast hb1.2
    constructor
    · apply le_pyRound
      push_cast
      nlinarith [mul_nonneg (by linarith :
          (0:ℝ) ≤ ((samples[(⌊(i : ℝ) / ratio⌋).toNat] : ℤ) : ℝ) + 32768)
          (by linarith : (0:ℝ) ≤ 1 - ((i : ℝ) / ratio - (⌊(i : ℝ) / ratio⌋ : ℝ))),
        mul_nonneg (by linarith :
          (0:ℝ) ≤ ((samples[min ((⌊(i : ℝ) / ratio⌋).toNat + 1) (L - 1)] : ℤ) : ℝ) + 32768)
          hfr0]
    · apply pyRound_le
      push_cast
      nlinarith [mul_nonneg (by linarith :
          (0:ℝ) ≤ 32767 - ((samples[(⌊(i : ℝ) / ratio⌋).toNat] : ℤ) : ℝ))
          (by linarith : (0:ℝ) ≤ 1 - ((i : ℝ) / ratio - (⌊(i : ℝ) / ratio⌋ : ℝ))),
        mul_nonneg (by linarith :
          (0:ℝ) ≤ 32767 - ((samples[min ((⌊(i : ℝ) / ratio⌋).toNat + 1) (L - 1)] : ℤ) : ℝ))
          hfr0]

/-- C10 witness: the range-preservation theorem applied at a concrete input
list and a concrete output element. -/
theorem resample_linear_preserves_range_witness :
    -32768 ≤ (1 : ℤ) ∧ (1 : ℤ) ≤ 32767 :=
  resample_linear_preserves_range [1, -5] (by decide) 2 2 1 (by simp [resample_linear])


/-- The zero-crossing scan returns either its initial best position or one of
the scanned candidate frames. -/
theorem zc_scan_mem (pcm : List ℤ) (channels : ℕ) (threshold : ℤ) :
    ∀ (idxs : List ℤ) (best min_amp : ℤ),
      zc_scan pcm channels threshold idxs best min_amp ∈ best :: idxs := by
  intro idxs
  induction idxs with
  | nil => intro best min_amp; simp [zc_scan]
  | cons i rest ih =>
    intro best min_amp
    unfold zc_scan
    dsimp only
    split_ifs
    · simp
    · have := ih i (frame_amplitude pcm i channels)
      rcases List.mem_cons.mp this with h | h
      · simp [h]
      · simp [List.mem_cons.mpr (Or.inr h)]
    · have := ih best min_amp
      rcases List.mem_cons.mp this with h | h
      · simp [h]
      · simp [List.mem_cons.mpr (Or.inr h)]

/-- A scan over `intRange a b` started at a best position in `[lo, hi]` stays
in `[lo, hi]` when the candidate range does. -/
theorem zc_scan_bounds (pcm : List ℤ) (channels : ℕ) (threshold : ℤ)
    (a b lo hi best min_amp : ℤ) (hb1 : lo ≤ best) (hb2 : best ≤ hi)
    (ha : lo ≤ a) (hbb : b ≤ hi + 1) :
    lo ≤ zc_scan pcm channels threshold (intRange a b) best min_amp ∧
      zc_scan pcm channels threshold (intRange a b) best min_amp ≤ hi := by
  have hm := zc_scan_mem pcm channels threshold (intRange a b) best min_amp
  rcases List.mem_cons.mp hm with hs | hs
  · rw [hs]; omega
  · have := mem_intRange hs
    omega

/-- The zero-crossing search stays inside `[min_frame, max_frame]` when that
interval is nonempty and an explicit `max_frame` is supplied. -/
theorem find_nearest_zero_crossing_bounds (pcm : List ℤ) (channels : ℕ)
    (frame_position : ℤ) (direction : SearchDir) (max_distance min_frame maxf threshold : ℤ)
    (h : min_frame ≤ maxf) :
    min_frame ≤ find_nearest_zero_crossing pcm channels frame_position direction
        max_distance min_frame (some maxf) threshold ∧
      find_nearest_zero_crossing pcm channels frame_position direction
        max_distance min_frame (some maxf) threshold ≤ maxf := by
  unfold find_nearest_zero_crossing
  dsimp only [Option.getD_some]
  cases direction <;>
  · dsimp only
    exact zc_scan_bounds pcm channels threshold _ _ min_frame maxf _ _
      (by omega) (by omega) (by omega) (by omega)



/-- Zero-crossing adjustment keeps valid loop bounds valid. -/
theorem adjust_loop_zero_crossing_bounds (pcm : List ℤ) (channels : ℕ)
    (loop_start loop_end max_distance threshold : ℤ)
    (h0 : 0 ≤ loop_start) (h1 : loop_start < loop_end)
    (h2 : loop_end ≤ ((pcm.length / channels : ℕ) : ℤ)) :
    0 ≤ (adjust_loop_zero_crossing pcm channels loop_start loop_end max_distance threshold).1 ∧
    (adjust_loop_zero_crossing pcm channels loop_start loop_end max_distance threshold).1
      < (adjust_loop_zero_crossing pcm channels loop_start loop_end max_distance threshold).2 ∧
    (adjust_loop_zero_crossing pcm channels loop_start loop_end max_distance threshold).2
      ≤ ((pcm.length / channels : ℕ) : ℤ) := by
  unfold adjust_loop_zero_crossing
  set fc : ℤ := ((pcm.length / channels : ℕ) : ℤ) with hfc
  dsimp only
  split_ifs with ha hb hc
  · exact ⟨h0, h1, h2⟩
  · exact ⟨h0, h1, h2⟩
  · -- main branch, adjustment discarded
    exact ⟨h0, h1, h2⟩
  · -- main branch, adjustment kept
    have has := find_nearest_zero_crossing_bounds pcm channels
      (max 0 (min loop_start (fc - 1))) .both max_distance 0
      (max (max (max 0 (min loop_start (fc - 1)) + 1) (min loop_end (fc - 1)) - 1) 0) threshold
      (by omega)
    have hae := find_nearest_zero_crossing_bounds pcm channels
      (max (max 0 (min loop_start (fc - 1)) + 1) (min loop_end (fc - 1))) .both max_distance
      (min (find_nearest_zero_crossing pcm channels (max 0 (min loop_start (fc - 1))) .both
          max_distance 0
          (some (max (max (max 0 (min loop_start (fc - 1)) + 1) (min loop_end (fc - 1)) - 1) 0))
          threshold + 1)
        (fc - 1))
      (fc - 1) threshold (by omega)
    refine ⟨?_, ?_, ?_⟩
    · omega
    · omega
    · omega



/-- C8: every multisample output region keeps the loop-bounds invariant when
its framecount is at least 1: the `invalid_loop` branch never fires after the
clamping step, an enabled loop satisfies `0 ≤ start < end ≤ framecount` both
before (clamped fields) and after the optional zero-crossing adjustment, and
a disabled loop is zeroed out. -/
theorem finalize_region_loop_invariant (pcm : List ℤ) (channels : ℕ)
    (loop_start loop_end : ℤ) (loop_enabled loop_on_release : Bool)
    (zero_crossing : Bool) (max_distance threshold : ℤ)
    (hfc : 1 ≤ pcm.length / channels) :
    (finalize_region_loop pcm channels loop_start loop_end loop_enabled
        loop_on_release zero_crossing max_distance threshold).invalid_loop_warned = false ∧
    ((finalize_region_loop pcm channels loop_start loop_end loop_enabled
        loop_on_release zero_crossing max_distance threshold).loop_enabled = true →
      (0 ≤ (finalize_region_loop pcm channels loop_start loop_end loop_enabled
          loop_on_release zero_crossing max_distance threshold).clamped_start ∧
        (finalize_region_loop pcm channels loop_start loop_end loop_enabled
          loop_on_release zero_crossing max_distance threshold).clamped_start
          < (finalize_region_loop pcm channels loop_start loop_end loop_enabled
              loop_on_release zero_crossing max_distance threshold).clamped_end ∧
        (finalize_region_loop pcm channels loop_start loop_end loop_enabled
          loop_on_release zero_crossing max_distance threshold).clamped_end
          ≤ ((pcm.length / channels : ℕ) : ℤ)) ∧
      (0 ≤ (finalize_region_loop pcm channels loop_start loop_end loop_enabled
          loop_on_release zero_crossing max_distance threshold).loop_start ∧
        (finalize_region_loop pcm channels loop_start loop_end loop_enabled
          loop_on_release zero_crossing max_distance threshold).loop_start
          < (finalize_region_loop pcm channels loop_start loop_end loop_enabled
              loop_on_release zero_crossing max_distance threshold).loop_end ∧
        (finalize_region_loop pcm channels loop_start loop_end loop_enabled
          loop_on_release zero_crossing max_distance threshold).loop_end
          ≤ ((pcm.length / channels : ℕ) : ℤ))) ∧
    ((finalize_region_loop pcm channels loop_start loop_end loop_enabled
        loop_on_release zero_crossing max_distance threshold).loop_enabled = false →
      (finalize_region_loop pcm channels loop_start loop_end loop_enabled
          loop_on_release zero_crossing max_distance threshold).loop_start = 0 ∧
        (finalize_region_loop pcm channels loop_start loop_end loop_enabled
          loop_on_release zero_crossing max_distance threshold).loop_end = 0) := by
  unfold finalize_region_loop
  set fcn : ℕ := pcm.length / channels with hfcn
  dsimp only
  by_cases hen : loop_enabled
  · rw [if_pos hen]
    have hcl : 0 ≤ max 0 (min loop_start ((fcn : ℤ) - 1)) ∧
        max 0 (min loop_start ((fcn : ℤ) - 1))
          < max (max 0 (min loop_start ((fcn : ℤ) - 1)) + 1) (min loop_end (fcn : ℤ)) ∧
        max (max 0 (min loop_start ((fcn : ℤ) - 1)) + 1) (min loop_end (fcn : ℤ)) ≤ (fcn : ℤ) := by
      omega
    split_ifs with hinv hzc
    · omega
    · have hadj := adjust_loop_zero_crossing_bounds pcm channels
        (max 0 (min loop_start ((fcn : ℤ) - 1)))
        (max (max 0 (min loop_start ((fcn : ℤ) - 1)) + 1) (min loop_end (fcn : ℤ)))
        max_distance threshold hcl.1 hcl.2.1 hcl.2.2
      refine ⟨rfl, fun _ => ⟨⟨hcl.1, hcl.2.1, hcl.2.2⟩, ?_⟩, fun hf => absurd hf (by simp)⟩
      exact hadj
    · exact ⟨rfl, fun _ => ⟨⟨hcl.1, hcl.2.1, hcl.2.2⟩, hcl.1, hcl.2.1, hcl.2.2⟩,
        fun hf => absurd hf (by simp)⟩
  · rw [if_neg hen]
    exact ⟨rfl, fun ht => absurd ht (by simp), fun _ => ⟨rfl, rfl⟩⟩

/-- C8 witness: the invariant instantiated on a concrete enabled loop with
zero-crossing snapping on. -/
theorem finalize_region_loop_invariant_witness :
    0 ≤ (finalize_region_loop [5, 5, 0, 5, 5, 5, 0, 5] 1 (-2) 100 true false true 1000 1).loop_start ∧
      (finalize_region_loop [5, 5, 0, 5, 5, 5, 0, 5] 1 (-2) 100 true false true 1000 1).loop_start
        < (finalize_region_loop [5, 5, 0, 5, 5, 5, 0, 5] 1 (-2) 100 true false true 1000 1).loop_end ∧
      (finalize_region_loop [5, 5, 0, 5, 5, 5, 0, 5] 1 (-2) 100 true false true 1000 1).loop_end ≤ 8 :=
  ((finalize_region_loop_invariant [5, 5, 0, 5, 5, 5, 0, 5] 1 (-2) 100 true false true 1000 1
      (by decide)).2.1 (by decide)).2

theorem rootLe_trans : ∀ a b c : MZone, rootLe a b = true → rootLe b c = true → rootLe a c = true := by
  intro a b c hab hbc
  simp only [rootLe, decide_eq_true_eq] at *
  omega

theorem rootLe_total : ∀ a b : MZone, (rootLe a b || rootLe b a) = true := by
  intro a b
  simp only [rootLe, Bool.or_eq_true, decide_eq_true_eq]
  omega

theorem assign_ranges_go_length (roots : List Int) (key_min key_max : Int) (n : Nat) :
    ∀ (zs : List MZone) (i : Nat),
      (assign_ranges_go roots key_min key_max n i zs).length = zs.length := by
  intro zs
  induction zs with
  | nil => intro i; rfl
  | cons z rest ih =>
    intro i
    unfold assign_ranges_go
    simp [ih (i + 1)]

theorem assign_ranges_go_map_root (roots : List Int) (key_min key_max : Int) (n : Nat) :
    ∀ (zs : List MZone) (i : Nat),
      (assign_ranges_go roots key_min key_max n i zs).map MZone.root_key
        = zs.map MZone.root_key := by
  intro zs
  induction zs with
  | nil => intro i; rfl
  | cons z rest ih =>
    intro i
    unfold assign_ranges_go
    simp [ih (i + 1)]

theorem assign_ranges_go_getD (roots : List Int) (key_min key_max : Int) (n : Nat) :
    ∀ (zs : List MZone) (j i : Nat) (d : MZone), j < zs.length →
      (assign_ranges_go roots key_min key_max n i zs).getD j d
        = { zs.getD j d with
            lokey := max key_min (min (if i + j = 0 then key_min
              else (roots.getD (i + j - 1) 60 + roots.getD (i + j) 60).fdiv 2 + 1) key_max),
            hikey := max key_min (min (if i + j = n - 1 then key_max
              else (roots.getD (i + j) 60 + roots.getD (i + j + 1) 60).fdiv 2) key_max) } := by
  intro zs
  induction zs with
  | nil => intro j i d hj; simp at hj
  | cons z rest ih =>
    intro j i d hj
    unfold assign_ranges_go
    cases j with
    | zero => simp
    | succ j2 =>
      have hj2 : j2 < rest.length := by simpa using hj
      have := ih j2 (i + 1) d hj2
      simp only [List.getD_cons_succ]
      rw [this]
      have harith : i + 1 + j2 = i + (j2 + 1) := by omega
      rw [harith]



/-- C6: `assign_key_ranges` sorts by root key; the first zone's low key is
`key_min` and the last zone's high key is `key_max`; every interior zone gets
low key `(root[i-1] + root[i]) // 2 + 1` and high key
`(root[i] + root[i+1]) // 2`, both clamped into `[key_min, key_max]`. -/
theorem assign_key_ranges_spec (zones : List MZone) (key_min key_max : Int) (d : MZone)
    (hne : zones ≠ []) (hk : key_min ≤ key_max) :
    List.Pairwise (fun a b => a.root_key ≤ b.root_key)
        (assign_key_ranges zones key_min key_max) ∧
    ((assign_key_ranges zones key_min key_max).getD 0 d).lokey = key_min ∧
    ((assign_key_ranges zones key_min key_max).getD
        ((assign_key_ranges zones key_min key_max).length - 1) d).hikey = key_max ∧
    (∀ j, 0 < j → j + 1 < (assign_key_ranges zones key_min key_max).length →
      ((assign_key_ranges zones key_min key_max).getD j d).lokey
          = max key_min (min
              ((((zones.mergeSort rootLe).map MZone.root_key).getD (j - 1) 60
                + ((zones.mergeSort rootLe).map MZone.root_key).getD j 60).fdiv 2 + 1) key_max) ∧
      ((assign_key_ranges zones key_min key_max).getD j d).hikey
          = max key_min (min
              ((((zones.mergeSort rootLe).map MZone.root_key).getD j 60
                + ((zones.mergeSort rootLe).map MZone.root_key).getD (j + 1) 60).fdiv 2) key_max)) := by
  unfold assign_key_ranges
  dsimp only
  set zs := zones.mergeSort rootLe with hzs
  set roots := zs.map MZone.root_key with hroots
  have hlen : zs.length = zones.length := List.length_mergeSort zones
  have hlen2 : (assign_ranges_go roots key_min key_max roots.length 0 zs).length = zs.length :=
    assign_ranges_go_length roots key_min key_max roots.length zs 0
  have hpos : 0 < zs.length := by
    rcases zones with _ | ⟨z, rest⟩
    · exact absurd rfl hne
    · rw [hlen]; simp
  have hrootslen : roots.length = zs.length := by
    rw [hroots, List.length_map]
  refine ⟨?_, ?_, ?_, ?_⟩
  · -- sortedness
    have hsorted : List.Pairwise (fun a b => rootLe a b = true) zs :=
      List.sorted_mergeSort rootLe_trans rootLe_total zones
    have hmap : (assign_ranges_go roots key_min key_max roots.length 0 zs).map MZone.root_key
        = zs.map MZone.root_key :=
      assign_ranges_go_map_root roots key_min key_max roots.length zs 0
    have h1 : List.Pairwise (· ≤ ·)
        ((assign_ranges_go roots key_min key_max roots.length 0 zs).map MZone.root_key) := by
      rw [hmap]
      rw [List.pairwise_map]
      exact hsorted.imp (fun h => by simpa [rootLe] using h)
    rw [List.pairwise_map] at h1
    exact h1
  · rw [assign_ranges_go_getD roots key_min key_max roots.length zs 0 0 d (by omega)]
    dsimp only
    rw [if_pos (show (0 + 0 : ℕ) = 0 from rfl)]
    omega
  · rw [hlen2]
    rw [assign_ranges_go_getD roots key_min key_max roots.length zs (zs.length - 1) 0 d (by omega)]
    dsimp only
    rw [if_pos (show 0 + (zs.length - 1) = roots.length - 1 by omega)]
    omega
  · intro j hj0 hj1
    rw [hlen2] at hj1
    rw [assign_ranges_go_getD roots key_min key_max roots.length zs j 0 d (by omega)]
    have hc1 : ¬ (0 + j = 0) := by omega
    have hc2 : ¬ (0 + j = roots.length - 1) := by omega
    rw [if_neg hc1, if_neg hc2]
    constructor
    · simp only [Nat.zero_add]
    · simp only [Nat.zero_add]

/-- C6 witness: the first assigned low key on a concrete three-zone preset. -/
theorem assign_key_ranges_spec_witness :
    ((assign_key_ranges [⟨60, (0, 127), 0, 0⟩, ⟨30, (0, 127), 0, 0⟩, ⟨90, (0, 127), 0, 0⟩]
        21 108).getD 0 ⟨0, (0, 0), 0, 0⟩).lokey = 21 :=
  (assign_key_ranges_spec [⟨60, (0, 127), 0, 0⟩, ⟨30, (0, 127), 0, 0⟩, ⟨90, (0, 127), 0, 0⟩]
      21 108 ⟨0, (0, 0), 0, 0⟩ (by decide) (by decide)).2.1

theorem best_unused_go_isSome (used : List ℕ) (target : ℤ) :
    ∀ (l : List ℤ) (idx : ℕ) (best : Option (ℕ × ℤ)),
      ((∃ k, idx ≤ k ∧ k < idx + l.length ∧ k ∉ used) ∨ best.isSome = true) →
      (best_unused_go used target idx l best).isSome = true := by
  intro l
  induction l with
  | nil =>
    intro idx best h
    rcases h with ⟨k, hk1, hk2, _⟩ | h
    · simp at hk2; omega
    · simpa [best_unused_go] using h
  | cons rk rest ih =>
    intro idx best h
    unfold best_unused_go
    split_ifs with hmem
    · apply ih
      rcases h with ⟨k, hk1, hk2, hk3⟩ | h
      · left
        refine ⟨k, ?_, ?_, hk3⟩
        · rcases Nat.eq_or_lt_of_le hk1 with rfl | hlt
          · exact absurd hmem hk3
          · omega
        · simp at hk2 ⊢; omega
      · right; exact h
    · cases best with
      | none => apply ih; right; rfl
      | some p =>
        rcases p with ⟨bi, bd⟩
        dsimp only
        split_ifs <;> (apply ih; right; rfl)

theorem best_unused_go_some_prop (used : List ℕ) (target : ℤ) (C : ℕ → Prop) :
    ∀ (l : List ℤ) (idx : ℕ) (best : Option (ℕ × ℤ)),
      (∀ p : ℕ × ℤ, best = some p → C p.1) →
      (∀ k, idx ≤ k → k < idx + l.length → k ∉ used → C k) →
      ∀ p : ℕ × ℤ, best_unused_go used target idx l best = some p → C p.1 := by
  intro l
  induction l with
  | nil =>
    intro idx best hbest hrange p hp
    exact hbest p hp
  | cons rk rest ih =>
    intro idx best hbest hrange p hp
    rw [best_unused_go] at hp
    split_ifs at hp with hmem
    · exact ih (idx + 1) best hbest
        (fun k hk1 hk2 hk3 => hrange k (by omega) (by simp; omega) hk3) p hp
    · cases best with
      | none =>
        exact ih (idx + 1) (some (idx, |rk - target|))
          (fun q hq => by
            rw [Option.some.injEq] at hq
            subst hq
            exact hrange idx le_rfl (by simp) hmem)
          (fun k hk1 hk2 hk3 => hrange k (by omega) (by simp; omega) hk3) p hp
      | some b =>
        rcases b with ⟨bi, bd⟩
        dsimp only at hp
        split_ifs at hp with hlt
        · exact ih (idx + 1) (some (idx, |rk - target|))
            (fun q hq => by
              rw [Option.some.injEq] at hq
              subst hq
              exact hrange idx le_rfl (by simp) hmem)
            (fun k hk1 hk2 hk3 => hrange k (by omega) (by simp; omega) hk3) p hp
        · exact ih (idx + 1) (some (bi, bd))
            (fun q hq => by
              rw [Option.some.injEq] at hq
              subst hq
              exact hbest (bi, bd) rfl)
            (fun k hk1 hk2 hk3 => hrange k (by omega) (by simp; omega) hk3) p hp

theorem best_unused_some_prop (roots : List ℤ) (used : List ℕ) (target : ℤ) (i : ℕ)
    (h : best_unused roots used target = some i) : i < roots.length ∧ i ∉ used := by
  unfold best_unused at h
  rcases Option.map_eq_some'.mp h with ⟨p, hp, rfl⟩
  exact best_unused_go_some_prop used target (fun k => k < roots.length ∧ k ∉ used)
    roots 0 none (fun q hq => Option.noConfusion hq)
    (fun k hk1 hk2 hk3 => ⟨by omega, hk3⟩) p hp

theorem best_unused_isSome (roots : List ℤ) (used : List ℕ) (target : ℤ)
    (h : ∃ k, k < roots.length ∧ k ∉ used) : (best_unused roots used target).isSome = true := by
  unfold best_unused
  rw [Option.isSome_map']
  apply best_unused_go_isSome
  left
  rcases h with ⟨k, hk1, hk2⟩
  exact ⟨k, by omega, by omega, hk2⟩



theorem exists_unused (used : List ℕ) (n : ℕ) (hnodup : used.Nodup)
    (hmem : ∀ u ∈ used, u < n) (hcard : used.length < n) :
    ∃ k, k < n ∧ k ∉ used := by
  have hsub : used.toFinset ⊆ Finset.range n := by
    intro u hu
    exact Finset.mem_range.mpr (hmem u (List.mem_toFinset.mp hu))
  have hcard2 : used.toFinset.card < (Finset.range n).card := by
    rw [List.toFinset_card_of_nodup hnodup, Finset.card_range]
    exact hcard
  have hne : used.toFinset ≠ Finset.range n := by
    intro he
    rw [he] at hcard2
    exact lt_irrefl _ hcard2
  have hss : used.toFinset ⊂ Finset.range n := ssubset_of_subset_of_ne hsub hne
  rcases Finset.exists_of_ssubset hss with ⟨k, hk1, hk2⟩
  exact ⟨k, Finset.mem_range.mp hk1, fun hk3 => hk2 (List.mem_toFinset.mpr hk3)⟩

theorem select_go_length (roots : List ℤ) :
    ∀ (ts : List ℤ) (used : List ℕ), used.Nodup → (∀ u ∈ used, u < roots.length) →
      used.length + ts.length ≤ roots.length →
      (select_go roots ts used).length = ts.length := by
  intro ts
  induction ts with
  | nil => intro used _ _ _; rfl
  | cons t ts2 ih =>
    intro used hnodup hmem hle
    unfold select_go
    have hex : ∃ k, k < roots.length ∧ k ∉ used :=
      exists_unused used roots.length hnodup hmem (by simp at hle; omega)
    have hsome := best_unused_isSome roots used t hex
    rcases Option.isSome_iff_exists.mp hsome with ⟨i, hi⟩
    rw [hi]
    have hprop := best_unused_some_prop roots used t i hi
    have h2 := ih (i :: used) (List.nodup_cons.mpr ⟨hprop.2, hnodup⟩)
      (fun u hu => by
        rcases List.mem_cons.mp hu with rfl | hu2
        · exact hprop.1
        · exact hmem u hu2)
      (by simp at hle ⊢; omega)
    simp [h2]



/-- C5: keyboard downselection returns all zones when there are at most
`max_zones` of them; otherwise (with `max_zones` at least 2) it returns
exactly `max_zones` zones, sorted by root key; in either claimed case the
result never has more than `max_zones` zones. -/
theorem select_zones_for_88_keys_spec (zones : List MZone) (max_zones : ℕ)
    (key_min key_max : ℤ) :
    (zones.length ≤ max_zones →
      select_zones_for_88_keys zones max_zones key_min key_max = zones) ∧
    (max_zones < zones.length → 2 ≤ max_zones →
      (select_zones_for_88_keys zones max_zones key_min key_max).length = max_zones ∧
      List.Pairwise (fun a b => a.root_key ≤ b.root_key)
        (select_zones_for_88_keys zones max_zones key_min key_max)) ∧
    (zones.length ≤ max_zones ∨ 2 ≤ max_zones →
      (select_zones_for_88_keys zones max_zones key_min key_max).length ≤ max_zones) := by
  unfold select_zones_for_88_keys
  by_cases hle : zones.length ≤ max_zones
  · rw [if_pos hle]
    exact ⟨fun _ => rfl, fun h2 _ => absurd h2 (by omega), fun _ => hle⟩
  · rw [if_neg hle]
    dsimp only
    have hsortlen : (zones.mergeSort rootLe).length = zones.length :=
      List.length_mergeSort zones
    have hrootslen : ((zones.mergeSort rootLe).map MZone.root_key).length = zones.length := by
      rw [List.length_map, hsortlen]
    have htlen : (key_targets max_zones key_min key_max).length = max_zones := by
      unfold key_targets
      rw [List.length_map, List.length_range]
    have hpicklen : (select_go ((zones.mergeSort rootLe).map MZone.root_key)
        (key_targets max_zones key_min key_max) []).length = max_zones := by
      rw [select_go_length ((zones.mergeSort rootLe).map MZone.root_key)
        (key_targets max_zones key_min key_max) [] List.nodup_nil (by simp)
        (by simp only [List.length_nil, hrootslen, htlen]; omega)]
      exact htlen
    have hfinallen : ∀ l : List MZone, (l.mergeSort rootLe).length = l.length :=
      fun l => List.length_mergeSort l
    constructor
    · intro h; exact absurd h hle
    constructor
    · intro _ _
      constructor
      · rw [hfinallen, List.length_map, hpicklen]
      · have hsorted := List.sorted_mergeSort rootLe_trans rootLe_total
          ((select_go ((zones.mergeSort rootLe).map MZone.root_key)
            (key_targets max_zones key_min key_max) []).map
              (fun i => (zones.mergeSort rootLe).getD i ⟨60, (0, 127), 0, 0⟩))
        exact hsorted.imp (fun h => by simpa [rootLe] using h)
    · intro _
      rw [hfinallen, List.length_map, hpicklen]

/-- C5 witness: three zones downselected to two. -/
theorem select_zones_for_88_keys_spec_witness :
    (select_zones_for_88_keys
        [⟨10, (0, 127), 0, 0⟩, ⟨20, (0, 127), 0, 0⟩, ⟨30, (0, 127), 0, 0⟩] 2 0 100).length
      = 2 :=
  ((select_zones_for_88_keys_spec
      [⟨10, (0, 127), 0, 0⟩, ⟨20, (0, 127), 0, 0⟩, ⟨30, (0, 127), 0, 0⟩] 2 0 100).2.1
    (by decide) (by decide)).1

/-- Membership of an indexed zone in some group. -/
def in_groups (p : ℕ × MZone) (gs : List (ℤ × List (ℕ × MZone))) : Prop :=
  ∃ g ∈ gs, p ∈ g.2

theorem add_to_group_nonempty (gs : List (ℤ × List (ℕ × MZone))) (root : ℤ) (p : ℕ × MZone)
    (h : ∀ g ∈ gs, g.2 ≠ []) : ∀ g ∈ add_to_group gs root p, g.2 ≠ [] := by
  induction gs with
  | nil =>
    intro g hg
    rw [add_to_group] at hg
    have h2 := List.mem_singleton.mp hg
    subst h2
    simp
  | cons g0 rest ih =>
    intro g hg
    rcases g0 with ⟨r, ps⟩
    rw [add_to_group] at hg
    by_cases hr : r = root
    · rw [if_pos hr] at hg
      rcases List.mem_cons.mp hg with h2 | hg2
      · subst h2; simp
      · exact h g (List.mem_cons.mpr (Or.inr hg2))
    · rw [if_neg hr] at hg
      rcases List.mem_cons.mp hg with h2 | hg2
      · subst h2
        exact h (r, ps) (List.mem_cons.mpr (Or.inl rfl))
      · exact ih (fun g2 hg2b => h g2 (List.mem_cons.mpr (Or.inr hg2b))) g hg2

theorem keys_add_mem :
    ∀ (gs : List (ℤ × List (ℕ × MZone))) (root : ℤ) (p : ℕ × MZone),
      root ∈ gs.map Prod.fst →
      (add_to_group gs root p).map Prod.fst = gs.map Prod.fst := by
  intro gs
  induction gs with
  | nil => intro root p h; simp at h
  | cons g0 rest ih =>
    intro root p h
    rcases g0 with ⟨r, ps⟩
    rw [add_to_group]
    by_cases hr : r = root
    · rw [if_pos hr]
      simp
    · rw [if_neg hr]
      have h2 : root ∈ rest.map Prod.fst := by
        have h' : root ∈ r :: rest.map Prod.fst := by
          simpa only [List.map_cons] using h
        rcases List.mem_cons.mp h' with hcon | h3
        · exact absurd hcon.symm hr
        · exact h3
      simp only [List.map_cons]
      rw [ih root p h2]

theorem keys_add_not_mem :
    ∀ (gs : List (ℤ × List (ℕ × MZone))) (root : ℤ) (p : ℕ × MZone),
      root ∉ gs.map Prod.fst →
      (add_to_group gs root p).map Prod.fst = gs.map Prod.fst ++ [root] := by
  intro gs
  induction gs with
  | nil => intro root p _; simp [add_to_group]
  | cons g0 rest ih =>
    intro root p h
    rcases g0 with ⟨r, ps⟩
    rw [add_to_group]
    by_cases hr : r = root
    · exact absurd (by simp [hr]) h
    · rw [if_neg hr]
      have h2 : root ∉ rest.map Prod.fst := by
        intro hcon
        exact h (by simp [hcon])
      simp only [List.map_cons, List.cons_append]
      rw [ih root p h2]

theorem keys_add_nodup (gs : List (ℤ × List (ℕ × MZone))) (root : ℤ) (p : ℕ × MZone)
    (h : (gs.map Prod.fst).Nodup) : ((add_to_group gs root p).map Prod.fst).Nodup := by
  by_cases hmem : root ∈ gs.map Prod.fst
  · rw [keys_add_mem gs root p hmem]
    exact h
  · rw [keys_add_not_mem gs root p hmem]
    simp [List.nodup_append, h, hmem]

theorem keys_add_toFinset (gs : List (ℤ × List (ℕ × MZone))) (root : ℤ) (p : ℕ × MZone) :
    ((add_to_group gs root p).map Prod.fst).toFinset
      = insert root (gs.map Prod.fst).toFinset := by
  by_cases hmem : root ∈ gs.map Prod.fst
  · rw [keys_add_mem gs root p hmem]
    rw [Finset.insert_eq_self.mpr (List.mem_toFinset.mpr hmem)]
  · rw [keys_add_not_mem gs root p hmem]
    simp [List.toFinset_append]
    rw [Finset.union_comm]
    simp [Finset.insert_eq]

theorem in_groups_add (gs : List (ℤ × List (ℕ × MZone))) (root : ℤ) (p q : ℕ × MZone)
    (h : in_groups q gs) : in_groups q (add_to_group gs root p) := by
  rcases h with ⟨g, hg, hq⟩
  induction gs with
  | nil => simp at hg
  | cons g0 rest ih =>
    rcases g0 with ⟨r, ps⟩
    rw [add_to_group]
    by_cases hr : r = root
    · rw [if_pos hr]
      rcases List.mem_cons.mp hg with h2 | hg2
      · subst h2
        exact ⟨(r, ps ++ [p]), List.mem_cons.mpr (Or.inl rfl), List.mem_append.mpr (Or.inl hq)⟩
      · exact ⟨g, List.mem_cons.mpr (Or.inr hg2), hq⟩
    · rw [if_neg hr]
      rcases List.mem_cons.mp hg with h2 | hg2
      · subst h2
        exact ⟨(r, ps), List.mem_cons.mpr (Or.inl rfl), hq⟩
      · rcases ih hg2 with ⟨g2, hg3, hq2⟩
        exact ⟨g2, List.mem_cons.mpr (Or.inr hg3), hq2⟩

theorem in_groups_add_self (gs : List (ℤ × List (ℕ × MZone))) (root : ℤ) (p : ℕ × MZone) :
    in_groups p (add_to_group gs root p) := by
  induction gs with
  | nil =>
    exact ⟨(root, [p]), List.mem_singleton.mpr rfl, List.mem_singleton.mpr rfl⟩
  | cons g0 rest ih =>
    rcases g0 with ⟨r, ps⟩
    rw [add_to_group]
    by_cases hr : r = root
    · rw [if_pos hr]
      exact ⟨(r, ps ++ [p]), List.mem_cons.mpr (Or.inl rfl),
        List.mem_append.mpr (Or.inr (List.mem_singleton.mpr rfl))⟩
    · rw [if_neg hr]
      rcases ih with ⟨g2, hg2, hp2⟩
      exact ⟨g2, List.mem_cons.mpr (Or.inr hg2), hp2⟩



theorem group_fold_nonempty :
    ∀ (pairs : List (ℕ × MZone)) (gs : List (ℤ × List (ℕ × MZone))),
      (∀ g ∈ gs, g.2 ≠ []) →
      ∀ g ∈ pairs.foldl (fun acc p => add_to_group acc p.2.root_key p) gs, g.2 ≠ [] := by
  intro pairs
  induction pairs with
  | nil => intro gs h; exact h
  | cons p rest ih =>
    intro gs h
    exact ih _ (add_to_group_nonempty gs p.2.root_key p h)

theorem group_fold_keys_nodup :
    ∀ (pairs : List (ℕ × MZone)) (gs : List (ℤ × List (ℕ × MZone))),
      (gs.map Prod.fst).Nodup →
      ((pairs.foldl (fun acc p => add_to_group acc p.2.root_key p) gs).map Prod.fst).Nodup := by
  intro pairs
  induction pairs with
  | nil => intro gs h; exact h
  | cons p rest ih =>
    intro gs h
    exact ih _ (keys_add_nodup gs p.2.root_key p h)

theorem group_fold_keys_toFinset :
    ∀ (pairs : List (ℕ × MZone)) (gs : List (ℤ × List (ℕ × MZone))),
      ((pairs.foldl (fun acc p => add_to_group acc p.2.root_key p) gs).map Prod.fst).toFinset
        = (pairs.map (fun p => p.2.root_key)).toFinset ∪ (gs.map Prod.fst).toFinset := by
  intro pairs
  induction pairs with
  | nil => intro gs; simp
  | cons p rest ih =>
    intro gs
    rw [List.foldl_cons, ih, keys_add_toFinset]
    simp only [List.map_cons, List.toFinset_cons]
    rw [Finset.union_insert, Finset.insert_union]

theorem group_fold_coverage :
    ∀ (pairs : List (ℕ × MZone)) (gs : List (ℤ × List (ℕ × MZone))) (q : ℕ × MZone),
      (q ∈ pairs ∨ in_groups q gs) →
      in_groups q (pairs.foldl (fun acc p => add_to_group acc p.2.root_key p) gs) := by
  intro pairs
  induction pairs with
  | nil =>
    intro gs q h
    rcases h with h | h
    · simp at h
    · exact h
  | cons p rest ih =>
    intro gs q h
    rw [List.foldl_cons]
    apply ih
    rcases h with h | h
    · rcases List.mem_cons.mp h with rfl | h2
      · exact Or.inr (in_groups_add_self gs q.2.root_key q)
      · exact Or.inl h2
    · exact Or.inr (in_groups_add gs p.2.root_key p q h)

theorem pick_best_go_isSome (velocities : List ℤ) :
    ∀ (l : List (ℕ × MZone)) (best : Option (ℕ × (ℤ × ℤ × ℤ))),
      best.isSome = true → (pick_best_go velocities l best).isSome = true := by
  intro l
  induction l with
  | nil => intro best h; simpa [pick_best_go] using h
  | cons x rest ih =>
    intro best h
    rcases x with ⟨i, z⟩
    cases best with
    | none => simp at h
    | some b =>
      rcases b with ⟨bi, bk⟩
      simp only [pick_best_go]
      split_ifs <;> exact ih _ rfl

theorem pick_best_isSome (velocities : List ℤ) (group : List (ℕ × MZone))
    (h : group ≠ []) : (pick_best velocities group).isSome = true := by
  rcases group with _ | ⟨⟨i, z⟩, rest⟩
  · exact absurd rfl h
  · unfold pick_best
    rw [Option.isSome_map']
    simp only [pick_best_go]
    exact pick_best_go_isSome velocities rest _ rfl



theorem drum_sel_go_selected_length (velocities : List ℤ) :
    ∀ (groups : List (ℤ × List (ℕ × MZone))), (∀ g ∈ groups, g.2 ≠ []) →
      (drum_sel_go velocities groups).selected.length = groups.length := by
  intro groups
  induction groups with
  | nil => intro _; rfl
  | cons g0 rest ih =>
    intro h
    rcases g0 with ⟨root, grp⟩
    rw [drum_sel_go]
    have hs := pick_best_isSome velocities grp (h (root, grp) (List.mem_cons.mpr (Or.inl rfl)))
    rcases Option.isSome_iff_exists.mp hs with ⟨b, hb⟩
    rw [hb]
    dsimp only
    rw [List.length_cons, ih (fun g hg => h g (List.mem_cons.mpr (Or.inr hg)))]
    simp

theorem drum_sel_go_missing (velocities : List ℤ) :
    ∀ (groups : List (ℤ × List (ℕ × MZone))), (∀ g ∈ groups, g.2 ≠ []) →
      (drum_sel_go velocities groups).missing = [] := by
  intro groups
  induction groups with
  | nil => intro _; rfl
  | cons g0 rest ih =>
    intro h
    rcases g0 with ⟨root, grp⟩
    rw [drum_sel_go]
    have hs := pick_best_isSome velocities grp (h (root, grp) (List.mem_cons.mpr (Or.inl rfl)))
    rcases Option.isSome_iff_exists.mp hs with ⟨b, hb⟩
    rw [hb]
    dsimp only
    exact ih (fun g hg => h g (List.mem_cons.mpr (Or.inr hg)))

theorem drum_sel_go_coverage (velocities : List ℤ) :
    ∀ (groups : List (ℤ × List (ℕ × MZone))) (i : ℕ),
      (∃ g ∈ groups, ∃ z, (i, z) ∈ g.2) →
      i ∈ (drum_sel_go velocities groups).selected
        ∨ i ∈ (drum_sel_go velocities groups).discarded := by
  intro groups
  induction groups with
  | nil =>
    intro i h
    rcases h with ⟨g, hg, _⟩
    simp at hg
  | cons g0 rest ih =>
    intro i h
    rcases g0 with ⟨root, grp⟩
    rw [drum_sel_go]
    rcases h with ⟨g, hg, z, hz⟩
    rcases List.mem_cons.mp hg with h2 | hg2
    · -- the zone's group is the head group, which is nonempty
      subst h2
      have hne : grp ≠ [] := by
        intro hcon
        rw [hcon] at hz
        simp at hz
      have hs := pick_best_isSome velocities grp hne
      rcases Option.isSome_iff_exists.mp hs with ⟨b, hb⟩
      rw [hb]
      dsimp only
      by_cases hib : i = b
      · subst hib
        left
        exact List.mem_cons.mpr (Or.inl rfl)
      · right
        apply List.mem_append.mpr
        left
        apply List.mem_filter.mpr
        constructor
        · exact List.mem_map.mpr ⟨(i, z), hz, rfl⟩
        · simpa using hib
    · -- the zone's group is further down
      have hrec := ih i ⟨g, hg2, z, hz⟩
      cases hpick : pick_best velocities grp with
      | none =>
        dsimp only
        rcases hrec with h3 | h3
        · exact Or.inl h3
        · exact Or.inr h3
      | some b =>
        dsimp only
        rcases hrec with h3 | h3
        · exact Or.inl (List.mem_cons.mpr (Or.inr h3))
        · exact Or.inr (List.mem_append.mpr (Or.inr h3))



/-- C9: drum zone selection in closest mode picks exactly one zone per
distinct root key (so the selected count equals the number of distinct root
keys), never logs `drum_velocity_missing`, and records every non-selected
zone index as discarded with reason `drum_velocity_choice`. -/
theorem select_drum_zones_closest (zones : List MZone) (velocities : List ℤ)
    (_hne : zones ≠ []) :
    (select_drum_zones_by_velocity zones velocities).selected.length
        = (zones.map MZone.root_key).dedup.length ∧
    (select_drum_zones_by_velocity zones velocities).missing = [] ∧
    ∀ i, i < zones.length →
      i ∈ (select_drum_zones_by_velocity zones velocities).selected
        ∨ i ∈ (select_drum_zones_by_velocity zones velocities).discarded := by
  unfold select_drum_zones_by_velocity group_by_root
  have hnonempty : ∀ g ∈ zones.enum.foldl (fun acc p => add_to_group acc p.2.root_key p) [],
      g.2 ≠ [] :=
    group_fold_nonempty zones.enum [] (by simp)
  have hnodup : ((zones.enum.foldl (fun acc p => add_to_group acc p.2.root_key p) []).map
      Prod.fst).Nodup :=
    group_fold_keys_nodup zones.enum [] (by simp)
  have hroots_eq : zones.enum.map (fun p : ℕ × MZone => p.2.root_key)
      = zones.map MZone.root_key := by
    have hcomp : (fun p : ℕ × MZone => p.2.root_key) = MZone.root_key ∘ Prod.snd := rfl
    rw [hcomp, ← List.map_map, List.enum_map_snd]
  have hfin : ((zones.enum.foldl (fun acc p => add_to_group acc p.2.root_key p) []).map
      Prod.fst).toFinset = (zones.map MZone.root_key).toFinset := by
    rw [group_fold_keys_toFinset zones.enum []]
    rw [hroots_eq]
    simp
  have hkeylen : ((zones.enum.foldl (fun acc p => add_to_group acc p.2.root_key p) []).map
      Prod.fst).length = (zones.map MZone.root_key).dedup.length := by
    have h1 := List.toFinset_card_of_nodup hnodup
    have h2 := List.toFinset_card_of_nodup (List.nodup_dedup (zones.map MZone.root_key))
    have h3 : (zones.map MZone.root_key).dedup.toFinset
        = (zones.map MZone.root_key).toFinset :=
      List.toFinset.ext_iff.mpr (fun x => List.mem_dedup)
    rw [h3] at h2
    rw [← h1, hfin, h2]
  refine ⟨?_, drum_sel_go_missing velocities _ hnonempty, ?_⟩
  · rw [drum_sel_go_selected_length velocities _ hnonempty]
    rw [← hkeylen, List.length_map]
  · intro i hi
    have henl : i < zones.enum.length := by
      rw [List.enum_length]
      exact hi
    have hq : zones.enum[i] = (i, zones[i]) := List.getElem_enum zones i henl
    have hmem : (i, zones[i]) ∈ zones.enum := by
      rw [← hq]
      exact List.getElem_mem henl
    have hin : in_groups (i, zones[i])
        (zones.enum.foldl (fun acc p => add_to_group acc p.2.root_key p) []) :=
      group_fold_coverage zones.enum [] (i, zones[i]) (Or.inl hmem)
    rcases hin with ⟨g, hg, hpz⟩
    exact drum_sel_go_coverage velocities _ i ⟨g, hg, zones[i], hpz⟩

/-- C9 witness: two velocity layers on root 36 and one zone on root 38 with
target velocity 100 select exactly two zones. -/
theorem select_drum_zones_closest_witness :
    (select_drum_zones_by_velocity
        [⟨36, (0, 63), 0, 0⟩, ⟨36, (64, 127), 0, 0⟩, ⟨38, (0, 127), 0, 0⟩] [100]).selected.length
      = 2 := by
  have h := (select_drum_zones_closest
    [⟨36, (0, 63), 0, 0⟩, ⟨36, (64, 127), 0, 0⟩, ⟨38, (0, 127), 0, 0⟩] [100] (by decide)).1
  rw [h]
  decide

end Sf2Opxy
